import Mathlib

/-!
Verification of the Parallel-Pacman engine (src/main.py, src/analytics.py)
against its natural-language specification.

The Python source is shallowly embedded: pure functions become Lean
functions, global constants become Lean constants, the mutable shared
dictionary becomes an explicit state record, and the imperative while-loops
become fuelled recursions whose fuel is proved sufficient.  Machine
integers are modelled by `Nat`/`Int` (Python integers are unbounded, so no
wrap-around is needed) and the floating-point timing samples by `ℚ`,
capturing the exact arithmetic formulas of the source.
-/

namespace PacPar

/-! ## Configuration constants (src/main.py lines 16-25) -/

def GRID_W : Nat := 28

def GRID_H : Nat := 20

def NUM_GHOSTS : Nat := 4

def AI_WORK_MS : Int := 80

def GHOST_UPDATE_EVERY : Nat := 8

/-! ## List helpers

`setNth`/`nthD` model Python's `l[i] = v` and `l[i]` on in-range indices;
an out-of-range `setNth` is a no-op (all uses are proved in range).
-/

def setNth {α : Type} : List α → Nat → α → List α
  | [], _, _ => []
  | _ :: t, 0, v => v :: t
  | h :: t, n + 1, v => h :: setNth t n v

def nthD {α : Type} : List α → Nat → α → α
  | [], _, d => d
  | h :: _, 0, _ => h
  | _ :: t, n + 1, d => nthD t n d

theorem length_setNth {α : Type} (l : List α) (i : Nat) (v : α) :
    (setNth l i v).length = l.length := by
  induction l generalizing i with
  | nil => rfl
  | cons h t ih =>
    cases i with
    | zero => rfl
    | succ n => simp [setNth, ih]

theorem nthD_setNth_eq {α : Type} (l : List α) (i : Nat) (v d : α) (h : i < l.length) :
    nthD (setNth l i v) i d = v := by
  induction l generalizing i with
  | nil => simp at h
  | cons a t ih =>
    cases i with
    | zero => rfl
    | succ n => exact ih n (by simpa using h)

theorem nthD_setNth_ne {α : Type} (l : List α) (i j : Nat) (v d : α) (h : i ≠ j) :
    nthD (setNth l i v) j d = nthD l j d := by
  induction l generalizing i j with
  | nil => rfl
  | cons a t ih =>
    cases i with
    | zero =>
      cases j with
      | zero => exact absurd rfl h
      | succ m => rfl
    | succ n =>
      cases j with
      | zero => rfl
      | succ m => exact ih n m (fun hc => h (by rw [hc]))

theorem setNth_out {α : Type} (l : List α) (i : Nat) (v : α) (h : l.length ≤ i) :
    setNth l i v = l := by
  induction l generalizing i with
  | nil => rfl
  | cons a t ih =>
    cases i with
    | zero => simp at h
    | succ n => simp [setNth, ih n (by simpa using h)]

theorem mem_setNth {α : Type} (l : List α) (i : Nat) (v a : α) (h : a ∈ setNth l i v) :
    a ∈ l ∨ a = v := by
  induction l generalizing i with
  | nil => simp [setNth] at h
  | cons b t ih =>
    cases i with
    | zero =>
      rcases List.mem_cons.1 h with h1 | h1
      · exact Or.inr h1
      · exact Or.inl (List.mem_cons_of_mem _ h1)
    | succ n =>
      rcases List.mem_cons.1 h with h1 | h1
      · exact Or.inl (h1 ▸ List.mem_cons_self _ _)
      · rcases ih n h1 with h2 | h2
        · exact Or.inl (List.mem_cons_of_mem _ h2)
        · exact Or.inr h2

theorem nthD_mem {α : Type} (l : List α) (i : Nat) (d : α) :
    nthD l i d ∈ l ∨ nthD l i d = d := by
  induction l generalizing i with
  | nil => exact Or.inr rfl
  | cons a t ih =>
    cases i with
    | zero => exact Or.inl (List.mem_cons_self _ _)
    | succ n =>
      rcases ih n with h | h
      · exact Or.inl (List.mem_cons_of_mem _ h)
      · exact Or.inr h

/-- Python `range(start, stop, step)` for positive `step`. -/
def pyRange (start stop step : Nat) : List Nat :=
  (List.range ((stop - start + step - 1) / step)).map (fun i => start + step * i)

theorem pyRange_one (n : Nat) : pyRange 0 n 1 = List.range n := by
  unfold pyRange
  simp

/-! ## Maze generation (src/main.py `generate_maze`, lines 57-83)

The Python function seeds the Mersenne-Twister generator and draws 30
random interior wall positions `(rx, ry)` with
`rx = randint(2, GRID_W-3)`, `ry = randint(2, GRID_H-3)`.  The generator
itself is not part of the logic under test; the draws are passed in as an
explicit list `randWalls`, with the `randint` bounds as a hypothesis, so
every theorem covers the actual seeded sequence whatever it is.
-/

def getCell (m : List (List Nat)) (y x : Nat) : Nat :=
  nthD (nthD m y []) x 1

def setCell (m : List (List Nat)) (y x v : Nat) : List (List Nat) :=
  setNth m y (setNth (nthD m y []) x v)

/-- Initial all-passable grid: `[[0] * GRID_W for _ in range(GRID_H)]`. -/
def maze_init : List (List Nat) :=
  List.replicate GRID_H (List.replicate GRID_W 0)

/-- First loop of `generate_maze`: wall every cell on the outer border. -/
def maze_borders (m : List (List Nat)) : List (List Nat) :=
  (pyRange 0 GRID_H 1).foldl (fun m y =>
    (pyRange 0 GRID_W 1).foldl (fun m x =>
      if x = 0 ∨ y = 0 ∨ x = GRID_W - 1 ∨ y = GRID_H - 1 then setCell m y x 1 else m) m) m

/-- Second loop of `generate_maze`: horizontal inner wall rows with gaps. -/
def maze_inner (m : List (List Nat)) : List (List Nat) :=
  (pyRange 3 (GRID_H - 3) 3).foldl (fun m y =>
    (pyRange 2 (GRID_W - 2) 1).foldl (fun m x =>
      if x % 5 ≠ 0 then setCell m y x 1 else m) m) m

/-- Third loop of `generate_maze`: the 30 randomly drawn interior walls. -/
def maze_rand (randWalls : List (Nat × Nat)) (m : List (List Nat)) : List (List Nat) :=
  randWalls.foldl (fun m rw => setCell m rw.2 rw.1 1) m

def generate_maze (randWalls : List (Nat × Nat)) : List (List Nat) :=
  setCell (maze_rand randWalls (maze_inner (maze_borders maze_init))) 0 (GRID_W / 2) 0

/-- Rectangular grid of the configured dimensions. -/
def Rect (m : List (List Nat)) : Prop :=
  m.length = GRID_H ∧ ∀ r ∈ m, r.length = GRID_W

theorem nthD_mem_of_lt {α : Type} (l : List α) (i : Nat) (d : α) (h : i < l.length) :
    nthD l i d ∈ l := by
  induction l generalizing i with
  | nil => simp at h
  | cons a t ih =>
    cases i with
    | zero => exact List.mem_cons_self _ _
    | succ n => exact List.mem_cons_of_mem _ (ih n (by simpa using h))

theorem Rect_setCell {m : List (List Nat)} (h : Rect m) (y x v : Nat) :
    Rect (setCell m y x v) := by
  obtain ⟨hl, hr⟩ := h
  by_cases hy : y < m.length
  · constructor
    · rw [setCell, length_setNth, hl]
    · intro r hrm
      rcases mem_setNth _ _ _ _ hrm with h1 | h1
      · exact hr r h1
      · rw [h1, length_setNth]
        exact hr _ (nthD_mem_of_lt m y [] hy)
  · unfold setCell
    rw [setNth_out _ _ _ (by omega)]
    exact ⟨hl, hr⟩

theorem getCell_setCell_ne (m : List (List Nat)) (y x v y' x' : Nat)
    (h : ¬(y = y' ∧ x = x')) :
    getCell (setCell m y x v) y' x' = getCell m y' x' := by
  by_cases hy : y = y'
  · subst hy
    have hx : x ≠ x' := fun hc => h ⟨rfl, hc⟩
    by_cases hl : y < m.length
    · unfold getCell setCell
      rw [nthD_setNth_eq _ _ _ _ hl]
      exact nthD_setNth_ne _ _ _ _ _ hx
    · unfold setCell
      rw [setNth_out _ _ _ (by omega)]
  · unfold getCell setCell
    rw [nthD_setNth_ne _ _ _ _ _ hy]

theorem getCell_setCell_eq (m : List (List Nat)) (y x v : Nat)
    (hy : y < m.length) (hx : x < (nthD m y []).length) :
    getCell (setCell m y x v) y x = v := by
  unfold getCell setCell
  rw [nthD_setNth_eq _ _ _ _ hy, nthD_setNth_eq _ _ _ _ hx]

theorem mem_pyRange_one (a b x : Nat) : x ∈ pyRange a b 1 ↔ a ≤ x ∧ x < b := by
  unfold pyRange
  simp only [List.mem_map, List.mem_range]
  constructor
  · rintro ⟨i, hi, rfl⟩
    omega
  · rintro ⟨h1, h2⟩
    exact ⟨x - a, by omega, by omega⟩

/-! Characterization of the row/grid folds of `generate_maze`. -/

theorem Rect_rowFold (xs : List Nat) (q : Nat → Prop) [DecidablePred q] (y v : Nat)
    (m : List (List Nat)) (h : Rect m) :
    Rect (xs.foldl (fun m x => if q x then setCell m y x v else m) m) := by
  induction xs generalizing m with
  | nil => exact h
  | cons x rest ih =>
    simp only [List.foldl_cons]
    by_cases hq : q x
    · simp only [if_pos hq]
      exact ih _ (Rect_setCell h y x v)
    · simp only [if_neg hq]
      exact ih _ h

theorem getCell_rowFold_untouched (xs : List Nat) (q : Nat → Prop) [DecidablePred q]
    (y v : Nat) (m : List (List Nat)) (y' x' : Nat)
    (h : ∀ x ∈ xs, q x → ¬(y = y' ∧ x = x')) :
    getCell (xs.foldl (fun m x => if q x then setCell m y x v else m) m) y' x'
      = getCell m y' x' := by
  induction xs generalizing m with
  | nil => rfl
  | cons x rest ih =>
    simp only [List.foldl_cons]
    rw [ih _ (fun z hz => h z (List.mem_cons_of_mem _ hz))]
    by_cases hq : q x
    · simp only [if_pos hq]
      exact getCell_setCell_ne _ _ _ _ _ _ (h x (List.mem_cons_self _ _) hq)
    · simp only [if_neg hq]

theorem getCell_rowFold_touched (xs : List Nat) (q : Nat → Prop) [DecidablePred q]
    (y v : Nat) (m : List (List Nat)) (x' : Nat)
    (hR : Rect m) (hy : y < GRID_H) (hx : x' < GRID_W)
    (hmem : x' ∈ xs) (hq : q x') :
    getCell (xs.foldl (fun m x => if q x then setCell m y x v else m) m) y x' = v := by
  induction xs generalizing m with
  | nil => simp at hmem
  | cons x rest ih =>
    simp only [List.foldl_cons]
    by_cases hr : x' ∈ rest
    · have hR' : Rect (if q x then setCell m y x v else m) := by
        by_cases hqx : q x
        · simp only [if_pos hqx]; exact Rect_setCell hR y x v
        · simp only [if_neg hqx]; exact hR
      exact ih _ hR' hr
    · have hxx : x = x' := by
        rcases List.mem_cons.1 hmem with h1 | h1
        · exact h1.symm
        · exact absurd h1 hr
      rw [hxx]
      simp only [if_pos hq]
      rw [getCell_rowFold_untouched _ q y v _ y x'
        (fun z hz _ hc => hr (hc.2 ▸ hz))]
      have hm : m.length = GRID_H := hR.1
      apply getCell_setCell_eq
      · omega
      · have : nthD m y [] ∈ m := nthD_mem_of_lt m y [] (by omega)
        rw [hR.2 _ this]
        exact hx

theorem Rect_gridFold (ys xs : List Nat) (q : Nat → Nat → Prop)
    [∀ x y, Decidable (q x y)] (v : Nat) (m : List (List Nat)) (h : Rect m) :
    Rect (ys.foldl (fun m y => xs.foldl (fun m x =>
      if q x y then setCell m y x v else m) m) m) := by
  induction ys generalizing m with
  | nil => exact h
  | cons y rest ih =>
    simp only [List.foldl_cons]
    exact ih _ (Rect_rowFold xs (fun x => q x y) y v m h)

theorem getCell_gridFold_char (ys xs : List Nat) (q : Nat → Nat → Prop)
    [∀ x y, Decidable (q x y)] (v : Nat) (m : List (List Nat))
    (hR : Rect m) (hnd : ys.Nodup) (y' x' : Nat) (hy' : y' < GRID_H) (hx' : x' < GRID_W) :
    getCell (ys.foldl (fun m y => xs.foldl (fun m x =>
        if q x y then setCell m y x v else m) m) m) y' x'
      = if y' ∈ ys ∧ x' ∈ xs ∧ q x' y' then v else getCell m y' x' := by
  induction ys generalizing m with
  | nil => simp
  | cons y rest ih =>
    simp only [List.foldl_cons]
    have hnd' : rest.Nodup := (List.nodup_cons.1 hnd).2
    have hyr : y ∉ rest := (List.nodup_cons.1 hnd).1
    have hR1 : Rect (xs.foldl (fun m x => if q x y then setCell m y x v else m) m) :=
      Rect_rowFold xs (fun x => q x y) y v m hR
    rw [ih _ hR1 hnd']
    by_cases h1 : y' ∈ rest ∧ x' ∈ xs ∧ q x' y'
    · rw [if_pos h1, if_pos ⟨List.mem_cons_of_mem _ h1.1, h1.2⟩]
    · rw [if_neg h1]
      by_cases h2 : y' = y ∧ x' ∈ xs ∧ q x' y'
      · obtain ⟨hyy, hxs, hq⟩ := h2
        subst hyy
        rw [getCell_rowFold_touched xs (fun x => q x y') y' v m x' hR hy' hx' hxs hq]
        rw [if_pos ⟨List.mem_cons_self _ _, hxs, hq⟩]
      · have huntouched : ∀ x ∈ xs, q x y → ¬(y = y' ∧ x = x') := by
          rintro z hz hqz ⟨rfl, rfl⟩
          exact h2 ⟨rfl, hz, hqz⟩
        rw [getCell_rowFold_untouched xs (fun x => q x y) y v m y' x' huntouched]
        have h3 : ¬(y' ∈ y :: rest ∧ x' ∈ xs ∧ q x' y') := by
          rintro ⟨hmem, hxs, hq⟩
          rcases List.mem_cons.1 hmem with h4 | h4
          · exact h2 ⟨h4, hxs, hq⟩
          · exact h1 ⟨h4, hxs, hq⟩
        rw [if_neg h3]

theorem Rect_wallsFold (ws : List (Nat × Nat)) (m : List (List Nat)) (h : Rect m) :
    Rect (ws.foldl (fun m rw => setCell m rw.2 rw.1 1) m) := by
  induction ws generalizing m with
  | nil => exact h
  | cons w rest ih =>
    simp only [List.foldl_cons]
    exact ih _ (Rect_setCell h w.2 w.1 1)

theorem getCell_wallsFold_untouched (ws : List (Nat × Nat)) (m : List (List Nat))
    (y' x' : Nat) (h : ∀ w ∈ ws, ¬(w.2 = y' ∧ w.1 = x')) :
    getCell (ws.foldl (fun m rw => setCell m rw.2 rw.1 1) m) y' x' = getCell m y' x' := by
  induction ws generalizing m with
  | nil => rfl
  | cons w rest ih =>
    simp only [List.foldl_cons]
    rw [ih _ (fun z hz => h z (List.mem_cons_of_mem _ hz))]
    exact getCell_setCell_ne _ _ _ _ _ _ (h w (List.mem_cons_self _ _))

theorem nthD_replicate {α : Type} (n i : Nat) (a d : α) :
    nthD (List.replicate n a) i d = if i < n then a else d := by
  induction n generalizing i with
  | zero => simp [nthD]
  | succ k ih =>
    cases i with
    | zero => simp [List.replicate, nthD]
    | succ j => simp [List.replicate, nthD, ih]

theorem Rect_maze_init : Rect maze_init := by
  refine ⟨by simp [maze_init], ?_⟩
  intro r hr
  rw [List.eq_of_mem_replicate hr]
  simp

theorem getCell_maze_init (y x : Nat) (hy : y < GRID_H) (hx : x < GRID_W) :
    getCell maze_init y x = 0 := by
  unfold getCell maze_init
  rw [nthD_replicate, if_pos hy, nthD_replicate, if_pos hx]

theorem Rect_stage3 (randWalls : List (Nat × Nat)) :
    Rect (maze_rand randWalls (maze_inner (maze_borders maze_init))) := by
  unfold maze_rand maze_inner maze_borders
  exact Rect_wallsFold _ _ (Rect_gridFold _ _ _ _ _ (Rect_gridFold _ _ _ _ _ Rect_maze_init))

theorem Rect_generate_maze (randWalls : List (Nat × Nat)) :
    Rect (generate_maze randWalls) := by
  unfold generate_maze
  exact Rect_setCell (Rect_stage3 randWalls) _ _ _

/-- The generator's final statement `maze[0][GRID_W // 2] = 0` re-opens one
border cell: the top-row tunnel is passable, regardless of the random draws. -/
theorem generate_maze_hole (randWalls : List (Nat × Nat)) :
    getCell (generate_maze randWalls) 0 (GRID_W / 2) = 0 := by
  unfold generate_maze
  have hR := Rect_stage3 randWalls
  apply getCell_setCell_eq
  · rw [hR.1]
    norm_num [GRID_H]
  · rw [hR.2 _ (nthD_mem_of_lt _ _ _ (by rw [hR.1]; norm_num [GRID_H]))]
    norm_num [GRID_W]

/-- Every border cell other than the tunnel is a wall, for any random draws
within the `randint` bounds used by the source. -/
theorem generate_maze_border (randWalls : List (Nat × Nat))
    (hrw : ∀ w ∈ randWalls, 2 ≤ w.1 ∧ w.1 ≤ GRID_W - 3 ∧ 2 ≤ w.2 ∧ w.2 ≤ GRID_H - 3)
    (y x : Nat) (hy : y < GRID_H) (hx : x < GRID_W)
    (hb : x = 0 ∨ y = 0 ∨ x = GRID_W - 1 ∨ y = GRID_H - 1)
    (hn : ¬(y = 0 ∧ x = GRID_W / 2)) :
    getCell (generate_maze randWalls) y x = 1 := by
  have hW : GRID_W = 28 := rfl
  have hH : GRID_H = 20 := rfl
  unfold generate_maze
  rw [getCell_setCell_ne _ _ _ _ _ _ (fun hc => hn ⟨hc.1.symm, hc.2.symm⟩)]
  unfold maze_rand
  rw [getCell_wallsFold_untouched _ _ _ _ (by
    rintro w hw ⟨h1, h2⟩
    obtain ⟨ha, hb2, hc, hd⟩ := hrw w hw
    rw [hW] at hb2
    rw [hH] at hd
    rw [hW, hH] at hb
    omega)]
  unfold maze_inner
  have hR1 : Rect ((pyRange 0 GRID_H 1).foldl (fun m y =>
      (pyRange 0 GRID_W 1).foldl (fun m x =>
        if x = 0 ∨ y = 0 ∨ x = GRID_W - 1 ∨ y = GRID_H - 1 then setCell m y x 1 else m) m)
      maze_init) := by
    exact Rect_gridFold _ _ _ _ _ Rect_maze_init
  rw [getCell_gridFold_char _ _ (fun x _ => x % 5 ≠ 0) 1 _ (by unfold maze_borders; exact hR1)
    (by decide) y x hy hx]
  rw [if_neg (by
    rintro ⟨hy2, hx2, -⟩
    rw [mem_pyRange_one] at hx2
    rcases hb with h | h | h | h
    · omega
    · rw [h] at hy2
      exact absurd hy2 (by decide)
    · omega
    · rw [h, hH] at hy2
      exact absurd hy2 (by decide))]
  unfold maze_borders
  rw [getCell_gridFold_char _ _
    (fun x y => x = 0 ∨ y = 0 ∨ x = GRID_W - 1 ∨ y = GRID_H - 1) 1 _ Rect_maze_init
    (by rw [pyRange_one]; exact List.nodup_range _) y x hy hx]
  rw [if_pos ⟨(mem_pyRange_one _ _ _).2 ⟨Nat.zero_le _, hy⟩,
    (mem_pyRange_one _ _ _).2 ⟨Nat.zero_le _, hx⟩, hb⟩]

/-- Concrete stand-in for the 30 seeded `randint` draws; any list within the
`randint` bounds yields the same border behaviour. -/
def mazeDemoWalls : List (Nat × Nat) := List.replicate 30 (2, 2)

/-- C5 (amended): the generated grid is rectangular (`GRID_H` rows of width
`GRID_W`) and contains at least one passable cell, but its border is walled
only up to a single exception: the generator's last statement re-opens the
tunnel cell `(GRID_W/2, 0)` on the top border, so that cell is passable. -/
theorem maze_generation_invariants (randWalls : List (Nat × Nat))
    (hrw : ∀ w ∈ randWalls, 2 ≤ w.1 ∧ w.1 ≤ GRID_W - 3 ∧ 2 ≤ w.2 ∧ w.2 ≤ GRID_H - 3) :
    ((generate_maze randWalls).length = GRID_H ∧
      ∀ r ∈ generate_maze randWalls, r.length = GRID_W) ∧
    (∀ y x, y < GRID_H → x < GRID_W →
      (x = 0 ∨ y = 0 ∨ x = GRID_W - 1 ∨ y = GRID_H - 1) → ¬(y = 0 ∧ x = GRID_W / 2) →
      getCell (generate_maze randWalls) y x = 1) ∧
    getCell (generate_maze randWalls) 0 (GRID_W / 2) = 0 := by
  exact ⟨Rect_generate_maze randWalls, generate_maze_border randWalls hrw,
    generate_maze_hole randWalls⟩

/-- C5 witness: the amended invariants instantiated at a concrete draw list. -/
theorem maze_generation_invariants_witness :
    (∀ w ∈ mazeDemoWalls, 2 ≤ w.1 ∧ w.1 ≤ GRID_W - 3 ∧ 2 ≤ w.2 ∧ w.2 ≤ GRID_H - 3) ∧
    (((generate_maze mazeDemoWalls).length = GRID_H ∧
      ∀ r ∈ generate_maze mazeDemoWalls, r.length = GRID_W) ∧
    (∀ y x, y < GRID_H → x < GRID_W →
      (x = 0 ∨ y = 0 ∨ x = GRID_W - 1 ∨ y = GRID_H - 1) → ¬(y = 0 ∧ x = GRID_W / 2) →
      getCell (generate_maze mazeDemoWalls) y x = 1) ∧
    getCell (generate_maze mazeDemoWalls) 0 (GRID_W / 2) = 0) :=
  ⟨by decide, maze_generation_invariants mazeDemoWalls (by decide)⟩

/-- C5 counterexample: the claim that every cell on the outer border is a
wall is false — the tunnel cell `(GRID_W/2, 0)` on the top border is
passable in the generated maze. -/
theorem maze_border_not_all_walls :
    ¬(∀ y x, y < GRID_H → x < GRID_W →
      (x = 0 ∨ y = 0 ∨ x = GRID_W - 1 ∨ y = GRID_H - 1) →
      getCell (generate_maze mazeDemoWalls) y x = 1) := by
  intro h
  have h1 := h 0 (GRID_W / 2) (by decide) (by decide) (Or.inr (Or.inl rfl))
  rw [generate_maze_hole mazeDemoWalls] at h1
  exact absurd h1 (by decide)

/-! ## Pathfinding (src/main.py lines 93-133)

Positions are integer pairs, as in the source (candidate neighbour
coordinates may be negative before the `in_bounds` check filters them).
The global `MAZE` read by the Python functions becomes an explicit `Maze`
parameter.  The two `while` loops become fuelled recursions; fuel
`GRID_W * GRID_H` is proved sufficient below.
-/

abbrev Pos : Type := Int × Int

abbrev Maze : Type := List (List Nat)

def in_bounds (x y : Int) : Bool :=
  decide (0 ≤ x ∧ x < (GRID_W : Int) ∧ 0 ≤ y ∧ y < (GRID_H : Int))

/-- `MAZE[ny][nx]`; only read after `in_bounds` holds, so the out-of-range
default (a wall) is never reached on the source's control paths. -/
def cellAt (m : Maze) (x y : Int) : Nat :=
  nthD (nthD m y.toNat []) x.toNat 1

def get_neighbors (m : Maze) (p : Pos) : List Pos :=
  (([((1 : Int), (0 : Int)), (-1, 0), (0, 1), (0, -1)]).map
      (fun d => (p.1 + d.1, p.2 + d.2))).filter
    (fun n => in_bounds n.1 n.2 && decide (cellAt m n.1 n.2 = 0))

/-- The Python `came_from` dict (`Pos → Option Pos`, `none` marking the
start) as an association list; keys are inserted at most once. -/
def lookupCF : List (Pos × Option Pos) → Pos → Option (Option Pos)
  | [], _ => none
  | e :: rest, p => if p = e.1 then some e.2 else lookupCF rest p

/-- Python's `p in came_from`. -/
def memCF (cf : List (Pos × Option Pos)) (p : Pos) : Bool :=
  (lookupCF cf p).isSome

/-- Inner `for`-loop of the BFS: discover the unvisited neighbours of `x`,
recording `x` as their predecessor and appending them to the queue. -/
def bfs_expand (m : Maze) (x : Pos) (st : List (Pos × Option Pos) × List Pos) :
    List (Pos × Option Pos) × List Pos :=
  (get_neighbors m x).foldl
    (fun st n => if memCF st.1 n then st
                 else ((n, some x) :: st.1, st.2 ++ [n])) st

/-- The BFS `while queue:` loop: pop from the front, stop at the goal,
otherwise expand. -/
def bfs_loop (m : Maze) (goal : Pos) :
    Nat → List Pos → List (Pos × Option Pos) → List (Pos × Option Pos)
  | 0, _, cf => cf
  | fuel + 1, queue, cf =>
    match queue with
    | [] => cf
    | x :: rest =>
      if x = goal then cf
      else
        let st := bfs_expand m x (cf, rest)
        bfs_loop m goal fuel st.2 st.1

/-- The backtracking `while came_from[current] != (sx, sy):` loop. -/
def backtrack_loop : Nat → List (Pos × Option Pos) → Pos → Pos → Pos
  | 0, _, _, current => current
  | fuel + 1, cf, start, current =>
    match lookupCF cf current with
    | some (some prev) =>
      if prev = start then current
      else
        match lookupCF cf prev with
        | some none => prev
        | _ => backtrack_loop fuel cf start prev
    | _ => current

def bfs_pathfind (m : Maze) (start goal : Pos) : Pos :=
  if start = goal then start
  else
    match lookupCF (bfs_loop m goal (GRID_W * GRID_H) [start] [(start, none)]) goal with
    | none => start
    | some _ =>
      backtrack_loop (GRID_W * GRID_H)
        (bfs_loop m goal (GRID_W * GRID_H) [start] [(start, none)]) start goal

/-! ### Graph-theoretic reading of the maze -/

/-- One BFS edge: `v` is enumerated among the passable in-bounds
neighbours of `u`. -/
def Adj (m : Maze) (u v : Pos) : Prop := v ∈ get_neighbors m u

instance (m : Maze) (u v : Pos) : Decidable (Adj m u v) := by
  unfold Adj
  exact inferInstance

/-- `v` is reachable from `s` in exactly `n` neighbour steps. -/
def ReachN (m : Maze) (s : Pos) : Nat → Pos → Prop
  | 0, v => v = s
  | n + 1, v => ∃ u, ReachN m s n u ∧ Adj m u v

def Reachable (m : Maze) (s v : Pos) : Prop := ∃ n, ReachN m s n v

/-- Shortest-path (BFS) distance; meaningful under `Reachable`. -/
noncomputable def bfsDist (m : Maze) (s v : Pos) : Nat :=
  sInf {n | ReachN m s n v}

/-! ### Distance lemmas -/

theorem bfsDist_le {m : Maze} {s v : Pos} {n : Nat} (h : ReachN m s n v) :
    bfsDist m s v ≤ n :=
  Nat.sInf_le h

theorem reachN_bfsDist {m : Maze} {s v : Pos} (h : Reachable m s v) :
    ReachN m s (bfsDist m s v) v :=
  Nat.sInf_mem h

theorem bfsDist_self (m : Maze) (s : Pos) : bfsDist m s s = 0 :=
  Nat.le_zero.mp (bfsDist_le (show ReachN m s 0 s from rfl))

theorem eq_of_bfsDist_zero {m : Maze} {s v : Pos} (h : Reachable m s v)
    (h0 : bfsDist m s v = 0) : v = s := by
  have h1 := reachN_bfsDist h
  rw [h0] at h1
  exact h1

theorem reachN_front {m : Maze} {s u v : Pos} {n : Nat}
    (hsu : Adj m s u) (h : ReachN m u n v) : ReachN m s (n + 1) v := by
  induction n generalizing v with
  | zero => exact ⟨s, rfl, h ▸ hsu⟩
  | succ k ih =>
    obtain ⟨w, hw, hwv⟩ := h
    exact ⟨w, ih hw, hwv⟩

theorem bfsDist_pred {m : Maze} {s v : Pos} {k : Nat} (h : Reachable m s v)
    (hd : bfsDist m s v = k + 1) :
    ∃ u, Adj m u v ∧ Reachable m s u ∧ bfsDist m s u = k := by
  have h1 := reachN_bfsDist h
  rw [hd] at h1
  obtain ⟨u, hu, huv⟩ := h1
  refine ⟨u, huv, ⟨k, hu⟩, ?_⟩
  have hle : bfsDist m s u ≤ k := bfsDist_le hu
  by_contra hne
  have hlt : bfsDist m s u < k := lt_of_le_of_ne hle hne
  have h2 : ReachN m s (bfsDist m s u + 1) v := ⟨u, reachN_bfsDist ⟨k, hu⟩, huv⟩
  have h3 := bfsDist_le h2
  omega

theorem adj_inb_pass {m : Maze} {u v : Pos} (h : Adj m u v) :
    in_bounds v.1 v.2 = true ∧ cellAt m v.1 v.2 = 0 := by
  unfold Adj get_neighbors at h
  rw [List.mem_filter] at h
  have h2 := h.2
  rw [Bool.and_eq_true, decide_eq_true_iff] at h2
  exact h2

/-! ### `lookupCF` lemmas -/

def keysCF (cf : List (Pos × Option Pos)) : List Pos := cf.map Prod.fst

theorem lookupCF_cons_ne {e : Pos × Option Pos} {cf : List (Pos × Option Pos)} {p : Pos}
    (h : p ≠ e.1) : lookupCF (e :: cf) p = lookupCF cf p := by
  simp [lookupCF, h]

theorem lookupCF_cons_eq (e : Pos × Option Pos) (cf : List (Pos × Option Pos)) :
    lookupCF (e :: cf) e.1 = some e.2 := by
  simp [lookupCF]

theorem lookupCF_eq_none_iff (cf : List (Pos × Option Pos)) (p : Pos) :
    lookupCF cf p = none ↔ p ∉ keysCF cf := by
  induction cf with
  | nil => simp [lookupCF, keysCF]
  | cons e rest ih =>
    unfold lookupCF
    by_cases hp : p = e.1
    · simp [hp, keysCF]
    · simp only [if_neg hp, keysCF, List.map_cons, List.mem_cons]
      rw [ih]
      unfold keysCF
      constructor
      · rintro h (h1 | h1)
        · exact hp h1
        · exact h h1
      · intro h h1
        exact h (Or.inr h1)

theorem memCF_iff (cf : List (Pos × Option Pos)) (p : Pos) :
    memCF cf p = true ↔ p ∈ keysCF cf := by
  unfold memCF
  rw [Option.isSome_iff_ne_none]
  constructor
  · intro h
    by_contra hmem
    exact h ((lookupCF_eq_none_iff cf p).2 hmem)
  · intro h hc
    exact ((lookupCF_eq_none_iff cf p).1 hc) h

theorem lookupCF_mem {cf : List (Pos × Option Pos)} {p : Pos} {v : Option Pos}
    (h : lookupCF cf p = some v) : (p, v) ∈ cf := by
  induction cf with
  | nil => simp [lookupCF] at h
  | cons e rest ih =>
    unfold lookupCF at h
    by_cases hp : p = e.1
    · rw [if_pos hp] at h
      have hv : v = e.2 := (Option.some_inj.mp h).symm
      rw [List.mem_cons]
      exact Or.inl (by rw [hp, hv])
    · rw [if_neg hp] at h
      exact List.mem_cons_of_mem _ (ih h)

theorem lookupCF_append_of_none {e cf : List (Pos × Option Pos)} {p : Pos}
    (h : lookupCF e p = none) : lookupCF (e ++ cf) p = lookupCF cf p := by
  induction e with
  | nil => rfl
  | cons a rest ih =>
    rw [List.cons_append]
    simp only [lookupCF] at h ⊢
    by_cases hp : p = a.1
    · rw [if_pos hp] at h
      exact absurd h (by simp)
    · rw [if_neg hp] at h ⊢
      exact ih h

theorem lookupCF_append_of_some {e cf : List (Pos × Option Pos)} {p : Pos} {v : Option Pos}
    (h : lookupCF e p = some v) : lookupCF (e ++ cf) p = some v := by
  induction e with
  | nil => simp [lookupCF] at h
  | cons a rest ih =>
    rw [List.cons_append]
    simp only [lookupCF] at h ⊢
    by_cases hp : p = a.1
    · rw [if_pos hp] at h ⊢
      exact h
    · rw [if_neg hp] at h ⊢
      exact ih h

/-! ### `bfs_expand` characterization -/

theorem get_neighbors_nodup (m : Maze) (p : Pos) : (get_neighbors m p).Nodup := by
  unfold get_neighbors
  apply List.Nodup.filter
  apply List.Nodup.map
  · intro a b hab
    rw [Prod.mk.injEq] at hab
    exact Prod.ext (by omega) (by omega)
  · decide

theorem expand_fold_eq (m : Maze) (x : Pos) (l : List Pos) (hl : l.Nodup) :
    ∀ (cf : List (Pos × Option Pos)) (q : List Pos),
    (l.foldl (fun st n => if memCF st.1 n then st
        else ((n, some x) :: st.1, st.2 ++ [n])) (cf, q))
    = ((l.filter (fun n => !(memCF cf n))).reverse.map (fun n => (n, some x)) ++ cf,
       q ++ l.filter (fun n => !(memCF cf n))) := by
  induction l with
  | nil => intro cf q; simp
  | cons n rest ih =>
    intro cf q
    have hnrest : n ∉ rest := (List.nodup_cons.1 hl).1
    have ihr := ih (List.nodup_cons.1 hl).2
    simp only [List.foldl_cons, List.filter_cons]
    by_cases hmem : memCF cf n
    · rw [if_pos hmem]
      have : (!memCF cf n) = false := by rw [hmem]; rfl
      rw [this]
      simp only [Bool.false_eq_true, if_false]
      exact ihr cf q
    · rw [if_neg hmem]
      have hnot : (!memCF cf n) = true := by
        rw [Bool.not_eq_true']
        exact Bool.not_eq_true _ ▸ (by simpa using hmem)
      rw [hnot]
      simp only [if_true]
      rw [ihr ((n, some x) :: cf) (q ++ [n])]
      have hfilter : rest.filter (fun z => !(memCF ((n, some x) :: cf) z))
          = rest.filter (fun z => !(memCF cf z)) := by
        apply List.filter_congr
        intro z hz
        have hzn : z ≠ n := fun hc => hnrest (hc ▸ hz)
        unfold memCF
        rw [lookupCF_cons_ne (show z ≠ (n, some x).1 from hzn)]
      rw [hfilter]
      rw [Prod.mk.injEq]
      refine ⟨?_, ?_⟩
      · simp
      · simp

theorem lookupCF_mapParent (l : List Pos) (x p : Pos) :
    lookupCF (l.map (fun n => (n, some x))) p
      = if p ∈ l then some (some x) else none := by
  induction l with
  | nil => simp [lookupCF]
  | cons a t ih =>
    simp only [List.map_cons]
    by_cases hp : p = a
    · subst hp
      simp [lookupCF]
    · rw [lookupCF_cons_ne (show p ≠ (a, some x).1 from hp), ih]
      by_cases hm : p ∈ t
      · rw [if_pos hm, if_pos (List.mem_cons_of_mem _ hm)]
      · rw [if_neg hm, if_neg (by
          intro hc
          rcases List.mem_cons.1 hc with h1 | h1
          · exact hp h1
          · exact hm h1)]

theorem keysCF_mapParent (l : List Pos) (x : Pos) :
    keysCF (l.map (fun n => (n, some x))) = l := by
  unfold keysCF
  induction l with
  | nil => rfl
  | cons a t ih => simp only [List.map_cons, ih]

theorem keysCF_append (a b : List (Pos × Option Pos)) :
    keysCF (a ++ b) = keysCF a ++ keysCF b := by
  unfold keysCF
  simp

theorem memCF_append_left {e : List (Pos × Option Pos)} (cf : List (Pos × Option Pos))
    {p : Pos} (h : memCF e p = true) : memCF (e ++ cf) p = true := by
  unfold memCF at h ⊢
  rw [Option.isSome_iff_exists] at h
  obtain ⟨v, hv⟩ := h
  rw [lookupCF_append_of_some hv]
  rfl

theorem memCF_append_right {e : List (Pos × Option Pos)} (cf : List (Pos × Option Pos))
    {p : Pos} (h : memCF cf p = true) : memCF (e ++ cf) p = true := by
  rw [memCF_iff] at h ⊢
  rw [keysCF_append]
  exact List.mem_append_right _ h

theorem memCF_append_elim {e cf : List (Pos × Option Pos)} {p : Pos}
    (h : memCF (e ++ cf) p = true) : memCF e p = true ∨ memCF cf p = true := by
  rw [memCF_iff] at h ⊢
  rw [memCF_iff, keysCF_append] at *
  exact List.mem_append.1 h

/-! ### The BFS loop invariant

`d` below is always `bfsDist m start`.  The queue is weakly sorted by
distance with span at most one (the classical FIFO-BFS property), every
popped vertex has all its neighbours discovered, and every recorded
predecessor is an exact-distance parent.
-/

structure BfsInv (m : Maze) (start : Pos) (q : List Pos)
    (cf : List (Pos × Option Pos)) : Prop where
  start_mem : lookupCF cf start = some none
  parent_none : ∀ p, lookupCF cf p = some none → p = start
  keys_nd : (keysCF cf).Nodup
  keys_inb : ∀ p, memCF cf p = true → in_bounds p.1 p.2 = true
  keys_reach : ∀ p, memCF cf p = true → Reachable m start p
  parent_ok : ∀ p pp, lookupCF cf p = some (some pp) →
    Adj m pp p ∧ memCF cf pp = true ∧ bfsDist m start p = bfsDist m start pp + 1
  q_sub : ∀ p ∈ q, memCF cf p = true
  q_nd : q.Nodup
  q_sorted : (q.map (bfsDist m start)).Pairwise (· ≤ ·)
  q_span : ∀ hd ∈ q.head?, ∀ p ∈ q, bfsDist m start p ≤ bfsDist m start hd + 1
  closed : ∀ p, memCF cf p = true → p ∉ q → ∀ n ∈ get_neighbors m p, memCF cf n = true

theorem bfs_headmin {m : Maze} {start : Pos} {q : List Pos}
    {cf : List (Pos × Option Pos)} (inv : BfsInv m start q cf) :
    ∀ hd ∈ q.head?, ∀ p ∈ q, bfsDist m start hd ≤ bfsDist m start p := by
  intro hd hhd p hp
  cases q with
  | nil => simp at hhd
  | cons a t =>
    have ha : hd = a := by
      simp [List.head?] at hhd
      exact hhd.symm
    subst ha
    rcases List.mem_cons.1 hp with h1 | h1
    · rw [h1]
    · have hs := inv.q_sorted
      rw [List.map_cons, List.pairwise_cons] at hs
      exact hs.1 _ (List.mem_map_of_mem _ h1)

/-- FIFO settling: any reachable vertex strictly closer than the queue head
is already visited and popped (including every reachable vertex once the
queue is empty). -/
theorem bfs_settled {m : Maze} {start : Pos} {q : List Pos}
    {cf : List (Pos × Option Pos)} (inv : BfsInv m start q cf) :
    ∀ w, Reachable m start w →
      (∀ hd ∈ q.head?, bfsDist m start w < bfsDist m start hd) →
      memCF cf w = true ∧ w ∉ q := by
  have main : ∀ n w, Reachable m start w → bfsDist m start w = n →
      (∀ hd ∈ q.head?, bfsDist m start w < bfsDist m start hd) →
      memCF cf w = true ∧ w ∉ q := by
    intro n
    induction n using Nat.strong_induction_on with
    | _ n ih =>
      intro w hw hdw hhd
      have hnotq : w ∉ q := by
        intro hq
        cases q with
        | nil => simp at hq
        | cons a t =>
          have h1 := hhd a (by simp [List.head?])
          have h2 := bfs_headmin inv a (by simp [List.head?]) w hq
          omega
      cases n with
      | zero =>
        have hws : w = start := eq_of_bfsDist_zero hw hdw
        refine ⟨?_, hnotq⟩
        unfold memCF
        rw [hws, inv.start_mem]
        rfl
      | succ k =>
        obtain ⟨u, huw, hu, hdu⟩ := bfsDist_pred hw hdw
        have hult : ∀ hd ∈ q.head?, bfsDist m start u < bfsDist m start hd := by
          intro hd hhd'
          have := hhd hd hhd'
          omega
        have ihu := ih k (by omega) u hu hdu hult
        exact ⟨inv.closed u ihu.1 ihu.2 w huw, hnotq⟩
  intro w hw hhd
  exact main _ w hw rfl hhd

/-- Everything reachable at distance at most that of the queue head is
already visited. -/
theorem bfs_mem_le {m : Maze} {start x : Pos} {rest : List Pos}
    {cf : List (Pos × Option Pos)} (inv : BfsInv m start (x :: rest) cf) :
    ∀ w, Reachable m start w → bfsDist m start w ≤ bfsDist m start x →
      memCF cf w = true := by
  have main : ∀ n w, Reachable m start w → bfsDist m start w = n →
      n ≤ bfsDist m start x → memCF cf w = true := by
    intro n
    cases n with
    | zero =>
      intro w hw hdw _
      have hws : w = start := eq_of_bfsDist_zero hw hdw
      unfold memCF
      rw [hws, inv.start_mem]
      rfl
    | succ k =>
      intro w hw hdw hle
      obtain ⟨u, huw, hu, hdu⟩ := bfsDist_pred hw hdw
      have hsettled := bfs_settled inv u hu (by
        intro hd hhd
        have : hd = x := by
          simp [List.head?] at hhd
          exact hhd.symm
        rw [this]
        omega)
      exact inv.closed u hsettled.1 hsettled.2 w huw
  intro w hw hle
  exact main _ w hw rfl hle

/-- A neighbour of the popped head that is not yet visited lies exactly one
step further from the start. -/
theorem bfs_new_dist {m : Maze} {start x : Pos} {rest : List Pos}
    {cf : List (Pos × Option Pos)} (inv : BfsInv m start (x :: rest) cf)
    (n : Pos) (hadj : Adj m x n) (hnot : ¬ memCF cf n = true) :
    bfsDist m start n = bfsDist m start x + 1 := by
  have hxmem := inv.q_sub x (List.mem_cons_self _ _)
  have hxreach := inv.keys_reach x hxmem
  have hstep : ReachN m start (bfsDist m start x + 1) n :=
    ⟨x, reachN_bfsDist hxreach, hadj⟩
  have hle : bfsDist m start n ≤ bfsDist m start x + 1 := bfsDist_le hstep
  have hgt : ¬ bfsDist m start n ≤ bfsDist m start x := fun hc =>
    hnot (bfs_mem_le inv n ⟨_, hstep⟩ hc)
  omega

theorem pairwise_le_of_const (l : List Nat) (c : Nat) (h : ∀ a ∈ l, a = c) :
    l.Pairwise (· ≤ ·) := by
  induction l with
  | nil => exact List.Pairwise.nil
  | cons a t ih =>
    refine List.Pairwise.cons ?_ (ih (fun b hb => h b (List.mem_cons_of_mem _ hb)))
    intro b hb
    rw [h a (List.mem_cons_self _ _), h b (List.mem_cons_of_mem _ hb)]

/-- One expansion step of the BFS preserves the invariant; the newly
discovered cells extend both the dictionary and the queue by the same
count. -/
theorem bfs_inv_step {m : Maze} {start x : Pos} {rest : List Pos}
    {cf : List (Pos × Option Pos)} (inv : BfsInv m start (x :: rest) cf) :
    BfsInv m start (bfs_expand m x (cf, rest)).2 (bfs_expand m x (cf, rest)).1 ∧
    (keysCF (bfs_expand m x (cf, rest)).1).length
      = (keysCF cf).length
        + ((get_neighbors m x).filter (fun n => !(memCF cf n))).length ∧
    (bfs_expand m x (cf, rest)).2.length
      = rest.length + ((get_neighbors m x).filter (fun n => !(memCF cf n))).length := by
  have hexp : bfs_expand m x (cf, rest)
      = (((get_neighbors m x).filter (fun n => !(memCF cf n))).reverse.map
            (fun n => (n, some x)) ++ cf,
         rest ++ (get_neighbors m x).filter (fun n => !(memCF cf n))) :=
    expand_fold_eq m x (get_neighbors m x) (get_neighbors_nodup m x) cf rest
  rw [hexp]
  set news := (get_neighbors m x).filter (fun n => !(memCF cf n)) with hnews
  set E := news.reverse.map (fun n => (n, some x)) with hE
  have hxmem : memCF cf x = true := inv.q_sub x (List.mem_cons_self _ _)
  have hfresh : ∀ n ∈ news, ¬ memCF cf n = true := by
    intro n hn
    have := (List.mem_filter.1 hn).2
    rw [Bool.not_eq_true'] at this
    rw [this]
    simp
  have hadjn : ∀ n ∈ news, Adj m x n := fun n hn => (List.mem_filter.1 hn).1
  have hdn : ∀ n ∈ news, bfsDist m start n = bfsDist m start x + 1 :=
    fun n hn => bfs_new_dist inv n (hadjn n hn) (hfresh n hn)
  have hreachn : ∀ n ∈ news, Reachable m start n := by
    intro n hn
    have hxreach := inv.keys_reach x hxmem
    exact ⟨bfsDist m start x + 1, ⟨x, reachN_bfsDist hxreach, hadjn n hn⟩⟩
  have hnews_nd : news.Nodup := (get_neighbors_nodup m x).filter _
  have hlookupE : ∀ p, lookupCF E p = if p ∈ news then some (some x) else none := by
    intro p
    rw [hE, lookupCF_mapParent]
    by_cases hp : p ∈ news
    · rw [if_pos (List.mem_reverse.2 hp), if_pos hp]
    · rw [if_neg (fun hc => hp (List.mem_reverse.1 hc)), if_neg hp]
  have hkeysE : keysCF E = news.reverse := by
    rw [hE, keysCF_mapParent]
  have hmemE : ∀ p, memCF E p = true ↔ p ∈ news := by
    intro p
    unfold memCF
    rw [hlookupE p]
    by_cases hp : p ∈ news
    · simp [hp]
    · simp [hp]
  have hlookup' : ∀ p, p ∉ news → lookupCF (E ++ cf) p = lookupCF cf p := by
    intro p hp
    exact lookupCF_append_of_none (by rw [hlookupE p, if_neg hp])
  have hlookupN : ∀ p ∈ news, lookupCF (E ++ cf) p = some (some x) := by
    intro p hp
    exact lookupCF_append_of_some (by rw [hlookupE p, if_pos hp])
  have hspanx : ∀ p ∈ x :: rest, bfsDist m start p ≤ bfsDist m start x + 1 :=
    inv.q_span x (by simp [List.head?])
  have hsortx : ∀ p ∈ rest, bfsDist m start x ≤ bfsDist m start p := by
    intro p hp
    exact bfs_headmin inv x (by simp [List.head?]) p (List.mem_cons_of_mem _ hp)
  have hrest_sorted : (rest.map (bfsDist m start)).Pairwise (· ≤ ·) := by
    have := inv.q_sorted
    rw [List.map_cons, List.pairwise_cons] at this
    exact this.2
  refine ⟨?_, ?_, ?_⟩
  · refine ⟨?_, ?_, ?_, ?_, ?_, ?_, ?_, ?_, ?_, ?_, ?_⟩
    · -- start_mem
      have hstart : start ∉ news := fun hc =>
        hfresh start hc (by unfold memCF; rw [inv.start_mem]; rfl)
      rw [hlookup' start hstart]
      exact inv.start_mem
    · -- parent_none
      intro p hp
      by_cases hpn : p ∈ news
      · rw [hlookupN p hpn] at hp
        exact absurd hp (by simp)
      · rw [hlookup' p hpn] at hp
        exact inv.parent_none p hp
    · -- keys_nd
      rw [keysCF_append, hkeysE]
      rw [List.nodup_append]
      refine ⟨List.nodup_reverse.2 hnews_nd, inv.keys_nd, ?_⟩
      intro a ha hac
      have ha' : a ∈ news := List.mem_reverse.1 ha
      exact hfresh a ha' ((memCF_iff cf a).2 hac)
    · -- keys_inb
      intro p hp
      rcases memCF_append_elim hp with h1 | h1
      · exact (adj_inb_pass (hadjn p ((hmemE p).1 h1))).1
      · exact inv.keys_inb p h1
    · -- keys_reach
      intro p hp
      rcases memCF_append_elim hp with h1 | h1
      · exact hreachn p ((hmemE p).1 h1)
      · exact inv.keys_reach p h1
    · -- parent_ok
      intro p pp hpp
      by_cases hpn : p ∈ news
      · have h1 := hlookupN p hpn
        rw [h1] at hpp
        have hppx : pp = x := by
          have := Option.some_inj.mp hpp
          exact (Option.some_inj.mp this).symm
        subst hppx
        exact ⟨hadjn p hpn, memCF_append_right cf hxmem, hdn p hpn⟩
      · rw [hlookup' p hpn] at hpp
        obtain ⟨h1, h2, h3⟩ := inv.parent_ok p pp hpp
        exact ⟨h1, memCF_append_right cf h2, h3⟩
    · -- q_sub
      intro p hp
      rcases List.mem_append.1 hp with h1 | h1
      · exact memCF_append_right cf (inv.q_sub p (List.mem_cons_of_mem _ h1))
      · exact memCF_append_left cf ((hmemE p).2 h1)
    · -- q_nd
      rw [List.nodup_append]
      refine ⟨(List.nodup_cons.1 inv.q_nd).2, hnews_nd, ?_⟩
      intro a ha hac
      exact hfresh a hac (inv.q_sub a (List.mem_cons_of_mem _ ha))
    · -- q_sorted
      rw [List.map_append, List.pairwise_append]
      refine ⟨hrest_sorted, ?_, ?_⟩
      · apply pairwise_le_of_const _ (bfsDist m start x + 1)
        intro a ha
        obtain ⟨n, hn, rfl⟩ := List.mem_map.1 ha
        exact hdn n hn
      · intro a ha b hb
        obtain ⟨p, hp, rfl⟩ := List.mem_map.1 ha
        obtain ⟨n, hn, rfl⟩ := List.mem_map.1 hb
        rw [hdn n hn]
        exact hspanx p (List.mem_cons_of_mem _ hp)
    · -- q_span
      intro hd hhd p hp
      have hhd_mem : hd ∈ rest ++ news := List.mem_of_mem_head? hhd
      have hdx_le : bfsDist m start x ≤ bfsDist m start hd := by
        rcases List.mem_append.1 hhd_mem with h1 | h1
        · exact hsortx hd h1
        · rw [hdn hd h1]
          omega
      have hp_le : bfsDist m start p ≤ bfsDist m start x + 1 := by
        rcases List.mem_append.1 hp with h1 | h1
        · exact hspanx p (List.mem_cons_of_mem _ h1)
        · rw [hdn p h1]
      omega
    · -- closed
      intro p hp hpq n hn
      rcases memCF_append_elim hp with h1 | h1
      · exact absurd (List.mem_append_right rest ((hmemE p).1 h1)) hpq
      · by_cases hpx : p = x
        · subst hpx
          by_cases hmemn : memCF cf n = true
          · exact memCF_append_right cf hmemn
          · have hnnews : n ∈ news := by
              rw [hnews]
              refine List.mem_filter.2 ⟨hn, ?_⟩
              rw [Bool.not_eq_true] at hmemn
              rw [hmemn]
              rfl
            exact memCF_append_left cf ((hmemE n).2 hnnews)
        · have hprest : p ∉ rest := fun hc => hpq (List.mem_append_left _ hc)
          have hpold : p ∉ x :: rest := by
            intro hc
            rcases List.mem_cons.1 hc with h2 | h2
            · exact hpx h2
            · exact hprest h2
          exact memCF_append_right cf (inv.closed p h1 hpold n hn)
  · rw [keysCF_append, hkeysE, List.length_append, List.length_reverse]
    omega
  · rw [List.length_append]

/-- A duplicate-free list of in-bounds positions has at most
`GRID_W * GRID_H` elements. -/
theorem inb_list_length_le (l : List Pos) (hnd : l.Nodup)
    (hinb : ∀ p ∈ l, in_bounds p.1 p.2 = true) :
    l.length ≤ GRID_W * GRID_H := by
  have hN : GRID_W * GRID_H = 560 := rfl
  rw [hN]
  have hbound : ∀ p ∈ l, p.1.toNat + 28 * p.2.toNat < 560 ∧
      0 ≤ p.1 ∧ p.1 < 28 ∧ 0 ≤ p.2 ∧ p.2 < 28 := by
    intro p hp
    have h1 := hinb p hp
    unfold in_bounds at h1
    rw [decide_eq_true_iff] at h1
    obtain ⟨ha, hb, hc, hd⟩ := h1
    have hb' : p.1 < 28 := hb
    have hd' : p.2 < 20 := hd
    refine ⟨by omega, ha, hb', hc, by omega⟩
  have hmapnd : (l.map (fun p : Pos => p.1.toNat + 28 * p.2.toNat)).Nodup := by
    apply List.Nodup.map_on ?_ hnd
    intro p hp q hq heq
    obtain ⟨-, hp1, hp2, hp3, hp4⟩ := hbound p hp
    obtain ⟨-, hq1, hq2, hq3, hq4⟩ := hbound q hq
    have h1 : p.1 = q.1 := by omega
    have h2 : p.2 = q.2 := by omega
    exact Prod.ext h1 h2
  have hsub : (l.map (fun p : Pos => p.1.toNat + 28 * p.2.toNat)).toFinset
      ⊆ Finset.range 560 := by
    intro z hz
    rw [List.mem_toFinset, List.mem_map] at hz
    obtain ⟨p, hp, rfl⟩ := hz
    rw [Finset.mem_range]
    exact (hbound p hp).1
  have hcard := Finset.card_le_card hsub
  rw [Finset.card_range, List.toFinset_card_of_nodup hmapnd, List.length_map] at hcard
  exact hcard

/-- The BFS `while` loop, run with enough fuel from an invariant state,
ends in an invariant state that contains the goal whenever the goal is
reachable. -/
theorem bfs_loop_spec (m : Maze) (start goal : Pos) :
    ∀ (fuel : Nat) (q : List Pos) (cf : List (Pos × Option Pos)),
    BfsInv m start q cf →
    q.length + (GRID_W * GRID_H - (keysCF cf).length) ≤ fuel →
    (∃ qR, BfsInv m start qR (bfs_loop m goal fuel q cf)) ∧
    (Reachable m start goal → memCF (bfs_loop m goal fuel q cf) goal = true) := by
  intro fuel
  induction fuel with
  | zero =>
    intro q cf inv hb
    have hq : q = [] := List.length_eq_zero.1 (by omega)
    subst hq
    refine ⟨⟨[], inv⟩, fun hreach => ?_⟩
    exact (bfs_settled inv goal hreach (by intro hd hhd; simp at hhd)).1
  | succ f ih =>
    intro q cf inv hb
    cases q with
    | nil =>
      refine ⟨⟨[], inv⟩, fun hreach => ?_⟩
      exact (bfs_settled inv goal hreach (by intro hd hhd; simp at hhd)).1
    | cons x rest =>
      simp only [bfs_loop]
      by_cases hxg : x = goal
      · rw [if_pos hxg]
        refine ⟨⟨x :: rest, inv⟩, fun _ => ?_⟩
        rw [← hxg]
        exact inv.q_sub x (List.mem_cons_self _ _)
      · rw [if_neg hxg]
        obtain ⟨inv', hkeys, hqlen⟩ := bfs_inv_step inv
        have hcard : (keysCF (bfs_expand m x (cf, rest)).1).length ≤ GRID_W * GRID_H := by
          apply inb_list_length_le _ inv'.keys_nd
          intro p hp
          exact inv'.keys_inb p ((memCF_iff _ p).2 hp)
        refine ih _ _ inv' ?_
        have hN : GRID_W * GRID_H = 560 := rfl
        rw [hN] at hb hcard ⊢
        simp only [List.length_cons] at hb
        omega

/-- The initial BFS state satisfies the invariant. -/
theorem bfs_inv_init (m : Maze) (start : Pos)
    (hinb : in_bounds start.1 start.2 = true) :
    BfsInv m start [start] [(start, none)] := by
  have hlook : ∀ p : Pos, lookupCF [(start, none)] p
      = if p = start then some none else none := by
    intro p
    simp [lookupCF]
  refine ⟨?_, ?_, ?_, ?_, ?_, ?_, ?_, ?_, ?_, ?_, ?_⟩
  · rw [hlook, if_pos rfl]
  · intro p hp
    rw [hlook] at hp
    by_cases h : p = start
    · exact h
    · rw [if_neg h] at hp
      exact absurd hp (by simp)
  · simp [keysCF]
  · intro p hp
    unfold memCF at hp
    rw [hlook] at hp
    by_cases h : p = start
    · rw [h]
      exact hinb
    · rw [if_neg h] at hp
      exact absurd hp (by simp)
  · intro p hp
    unfold memCF at hp
    rw [hlook] at hp
    by_cases h : p = start
    · exact ⟨0, h⟩
    · rw [if_neg h] at hp
      exact absurd hp (by simp)
  · intro p pp hpp
    rw [hlook] at hpp
    by_cases h : p = start
    · rw [if_pos h] at hpp
      exact absurd hpp (by simp)
    · rw [if_neg h] at hpp
      exact absurd hpp (by simp)
  · intro p hp
    rw [List.mem_singleton] at hp
    unfold memCF
    rw [hlook, if_pos hp]
    rfl
  · simp
  · simp
  · intro hd hhd p hp
    rw [List.mem_singleton] at hp
    have : hd = start := by
      simp [List.head?] at hhd
      exact hhd.symm
    rw [hp, this]
    omega
  · intro p hp hpq n _
    unfold memCF at hp
    rw [hlook] at hp
    by_cases h : p = start
    · exact absurd (List.mem_singleton.2 h) hpq
    · rw [if_neg h] at hp
      exact absurd hp (by simp)

/-- The recorded predecessor of a visited vertex (identity elsewhere). -/
def parentOf (cf : List (Pos × Option Pos)) (p : Pos) : Pos :=
  match lookupCF cf p with
  | some (some pp) => pp
  | _ => p

theorem parentOf_eq {cf : List (Pos × Option Pos)} {p pp : Pos}
    (h : lookupCF cf p = some (some pp)) : parentOf cf p = pp := by
  unfold parentOf
  rw [h]

theorem bfs_chain {m : Maze} {start : Pos} {q : List Pos}
    {cf : List (Pos × Option Pos)} (inv : BfsInv m start q cf) (c : Pos)
    (hc : memCF cf c = true) :
    ∀ i, i ≤ bfsDist m start c →
      memCF cf ((parentOf cf)^[i] c) = true ∧
      bfsDist m start ((parentOf cf)^[i] c) = bfsDist m start c - i := by
  intro i
  induction i with
  | zero =>
    intro _
    exact ⟨hc, by simp⟩
  | succ k ih =>
    intro hk
    obtain ⟨hmem, hd⟩ := ih (by omega)
    have hdpos : 1 ≤ bfsDist m start ((parentOf cf)^[k] c) := by omega
    obtain ⟨v, hv⟩ := Option.isSome_iff_exists.1 hmem
    cases v with
    | none =>
      exfalso
      have := inv.parent_none _ hv
      rw [this, bfsDist_self] at hd
      omega
    | some pp =>
      obtain ⟨hadj, hmemp, hdp⟩ := inv.parent_ok _ pp hv
      have hstep : (parentOf cf)^[k + 1] c = pp := by
        rw [Function.iterate_succ_apply']
        exact parentOf_eq hv
      rw [hstep]
      exact ⟨hmemp, by omega⟩

/-- The parent chain from any visited vertex is injective, so the distance
of a visited vertex is bounded by the dictionary size. -/
theorem bfs_dist_lt_keys {m : Maze} {start : Pos} {q : List Pos}
    {cf : List (Pos × Option Pos)} (inv : BfsInv m start q cf) {c : Pos}
    (hc : memCF cf c = true) :
    bfsDist m start c < (keysCF cf).length := by
  have hch := bfs_chain inv c hc
  have hnd : ((List.range (bfsDist m start c + 1)).map
      (fun i => (parentOf cf)^[i] c)).Nodup := by
    apply List.Nodup.map_on ?_ (List.nodup_range _)
    intro i hi j hj heq
    rw [List.mem_range] at hi hj
    have h1 := (hch i (by omega)).2
    have h2 := (hch j (by omega)).2
    rw [heq] at h1
    omega
  have hsub : ∀ z ∈ (List.range (bfsDist m start c + 1)).map
      (fun i => (parentOf cf)^[i] c), z ∈ keysCF cf := by
    intro z hz
    obtain ⟨i, hi, rfl⟩ := List.mem_map.1 hz
    rw [List.mem_range] at hi
    exact (memCF_iff _ _).1 (hch i (by omega)).1
  have hsp := (List.Nodup.subperm hnd hsub).length_le
  rw [List.length_map, List.length_range] at hsp
  omega

/-- Backtracking from any visited vertex on the goal's parent chain ends at
the unique chain vertex whose recorded parent is `start`, and that vertex
still reaches the goal in `bfsDist start goal - 1` steps. -/
theorem backtrack_spec {m : Maze} {start : Pos} {q : List Pos}
    {cf : List (Pos × Option Pos)} (inv : BfsInv m start q cf) (goal : Pos) :
    ∀ (fuel : Nat) (c : Pos) (j : Nat),
      memCF cf c = true → c ≠ start →
      bfsDist m start c ≤ fuel →
      ReachN m c j goal →
      bfsDist m start c + j = bfsDist m start goal →
      lookupCF cf (backtrack_loop fuel cf start c) = some (some start) ∧
      ReachN m (backtrack_loop fuel cf start c) (bfsDist m start goal - 1) goal := by
  intro fuel
  induction fuel with
  | zero =>
    intro c j hc hcs hfuel hreach hsum
    exfalso
    have hr := inv.keys_reach c hc
    have h0 : bfsDist m start c = 0 := by omega
    exact hcs (eq_of_bfsDist_zero hr h0)
  | succ f ih =>
    intro c j hc hcs hfuel hreach hsum
    have hr := inv.keys_reach c hc
    have hcpos : 1 ≤ bfsDist m start c := by
      rcases Nat.eq_zero_or_pos (bfsDist m start c) with h | h
      · exact absurd (eq_of_bfsDist_zero hr h) hcs
      · exact h
    obtain ⟨v, hv⟩ := Option.isSome_iff_exists.1 hc
    cases v with
    | none => exact absurd (inv.parent_none c hv) hcs
    | some prev =>
      obtain ⟨hadj, hmemp, hdc⟩ := inv.parent_ok c prev hv
      simp only [backtrack_loop, hv]
      by_cases hps : prev = start
      · rw [if_pos hps]
        refine ⟨by rw [hv, hps], ?_⟩
        have hone : bfsDist m start c = 1 := by
          rw [hdc, hps, bfsDist_self]
        have hj : j = bfsDist m start goal - 1 := by omega
        rw [← hj]
        exact hreach
      · rw [if_neg hps]
        have hsomep : (lookupCF cf prev).isSome := hmemp
        obtain ⟨w, hw⟩ := Option.isSome_iff_exists.1 hsomep
        cases w with
        | none => exact absurd (inv.parent_none prev hw) hps
        | some pp =>
          simp only [hw]
          exact ih prev (j + 1) hmemp hps (by omega)
            (reachN_front hadj hreach) (by omega)

/-- C4: for in-bounds passable `start` and `goal`: `bfs_pathfind` returns
`start` when `start = goal` and when `goal` is unreachable over 4-connected
passable cells; otherwise it returns a passable in-bounds cell adjacent to
`start` lying on a shortest path, whose BFS distance to the goal is exactly
one less than that of `start` (in particular strictly smaller). -/
theorem bfs_pathfind_spec (m : Maze) (start goal : Pos)
    (hs : in_bounds start.1 start.2 = true ∧ cellAt m start.1 start.2 = 0)
    (hg : in_bounds goal.1 goal.2 = true ∧ cellAt m goal.1 goal.2 = 0) :
    (start = goal → bfs_pathfind m start goal = start) ∧
    (¬ Reachable m start goal → bfs_pathfind m start goal = start) ∧
    (start ≠ goal → Reachable m start goal →
      Adj m start (bfs_pathfind m start goal) ∧
      in_bounds (bfs_pathfind m start goal).1 (bfs_pathfind m start goal).2 = true ∧
      cellAt m (bfs_pathfind m start goal).1 (bfs_pathfind m start goal).2 = 0 ∧
      bfsDist m (bfs_pathfind m start goal) goal + 1 = bfsDist m start goal) := by
  have hinit := bfs_inv_init m start hs.1
  have hfuelinit : ([start] : List Pos).length
      + (GRID_W * GRID_H - (keysCF [(start, none)]).length) ≤ GRID_W * GRID_H := by
    have hN : GRID_W * GRID_H = 560 := rfl
    have hk : (keysCF [(start, none)]).length = 1 := rfl
    rw [hN, hk]
    simp
  obtain ⟨⟨qR, invR⟩, hgoalmem⟩ := bfs_loop_spec m start goal (GRID_W * GRID_H)
    [start] [(start, none)] hinit hfuelinit
  refine ⟨?_, ?_, ?_⟩
  · intro h
    unfold bfs_pathfind
    rw [if_pos h]
  · intro hnr
    have hne : start ≠ goal := fun h => hnr ⟨0, h.symm⟩
    unfold bfs_pathfind
    rw [if_neg hne]
    have hnone : lookupCF (bfs_loop m goal (GRID_W * GRID_H) [start] [(start, none)]) goal
        = none := by
      cases hl : lookupCF (bfs_loop m goal (GRID_W * GRID_H) [start] [(start, none)]) goal with
      | none => rfl
      | some v =>
        exfalso
        exact hnr (invR.keys_reach goal (by unfold memCF; rw [hl]; rfl))
    rw [hnone]
  · intro hne hreach
    have hmem := hgoalmem hreach
    obtain ⟨v, hv⟩ := Option.isSome_iff_exists.1 hmem
    have hD1 : 1 ≤ bfsDist m start goal := by
      rcases Nat.eq_zero_or_pos (bfsDist m start goal) with h | h
      · exact absurd (eq_of_bfsDist_zero hreach h).symm hne
      · exact h
    have hfuelD : bfsDist m start goal ≤ GRID_W * GRID_H := by
      have h1 := bfs_dist_lt_keys invR hmem
      have h2 : (keysCF (bfs_loop m goal (GRID_W * GRID_H) [start] [(start, none)])).length
          ≤ GRID_W * GRID_H := by
        apply inb_list_length_le _ invR.keys_nd
        intro p hp
        exact invR.keys_inb p ((memCF_iff _ p).2 hp)
      omega
    have hgs : goal ≠ start := fun h => hne h.symm
    obtain ⟨hlookr, hreachr⟩ := backtrack_spec invR goal (GRID_W * GRID_H) goal 0
      hmem hgs hfuelD rfl (by omega)
    have hres : bfs_pathfind m start goal
        = backtrack_loop (GRID_W * GRID_H)
            (bfs_loop m goal (GRID_W * GRID_H) [start] [(start, none)]) start goal := by
      unfold bfs_pathfind
      rw [if_neg hne, hv]
    obtain ⟨hadjr, hmemr, hdr⟩ := invR.parent_ok _ start hlookr
    rw [hres]
    refine ⟨hadjr, (adj_inb_pass hadjr).1, (adj_inb_pass hadjr).2, ?_⟩
    have hub : bfsDist m
        (backtrack_loop (GRID_W * GRID_H)
          (bfs_loop m goal (GRID_W * GRID_H) [start] [(start, none)]) start goal) goal
        ≤ bfsDist m start goal - 1 := bfsDist_le hreachr
    have hlb : bfsDist m start goal
        ≤ bfsDist m
            (backtrack_loop (GRID_W * GRID_H)
              (bfs_loop m goal (GRID_W * GRID_H) [start] [(start, none)]) start goal) goal
          + 1 :=
      bfsDist_le (reachN_front hadjr (reachN_bfsDist ⟨_, hreachr⟩))
    omega

/-- A small concrete maze (two adjacent passable cells) for the witness. -/
def bfsDemoMaze : Maze := [[1, 1, 1, 1], [1, 0, 0, 1], [1, 1, 1, 1]]

def bfsDemoA : Pos := ((1 : Int), (1 : Int))

def bfsDemoB : Pos := ((2 : Int), (1 : Int))

/-- C4 witness: the pathfinding contract instantiated at concrete in-bounds
passable cells of a concrete maze. -/
theorem bfs_pathfind_spec_witness :
    (in_bounds bfsDemoA.1 bfsDemoA.2 = true ∧ cellAt bfsDemoMaze bfsDemoA.1 bfsDemoA.2 = 0) ∧
    (in_bounds bfsDemoB.1 bfsDemoB.2 = true ∧ cellAt bfsDemoMaze bfsDemoB.1 bfsDemoB.2 = 0) ∧
    ((bfsDemoA = bfsDemoB → bfs_pathfind bfsDemoMaze bfsDemoA bfsDemoB = bfsDemoA) ∧
     (¬ Reachable bfsDemoMaze bfsDemoA bfsDemoB →
        bfs_pathfind bfsDemoMaze bfsDemoA bfsDemoB = bfsDemoA) ∧
     (bfsDemoA ≠ bfsDemoB → Reachable bfsDemoMaze bfsDemoA bfsDemoB →
        Adj bfsDemoMaze bfsDemoA (bfs_pathfind bfsDemoMaze bfsDemoA bfsDemoB) ∧
        in_bounds (bfs_pathfind bfsDemoMaze bfsDemoA bfsDemoB).1
          (bfs_pathfind bfsDemoMaze bfsDemoA bfsDemoB).2 = true ∧
        cellAt bfsDemoMaze (bfs_pathfind bfsDemoMaze bfsDemoA bfsDemoB).1
          (bfs_pathfind bfsDemoMaze bfsDemoA bfsDemoB).2 = 0 ∧
        bfsDist bfsDemoMaze (bfs_pathfind bfsDemoMaze bfsDemoA bfsDemoB) bfsDemoB + 1
          = bfsDist bfsDemoMaze bfsDemoA bfsDemoB)) :=
  ⟨⟨by decide, by decide⟩, ⟨by decide, by decide⟩,
    bfs_pathfind_spec bfsDemoMaze bfsDemoA bfsDemoB ⟨by decide, by decide⟩
      ⟨by decide, by decide⟩⟩

/-! ## Ghost state and the parallel dispatch (src/main.py lines 234-252, 585-614)

`pool.map_async(worker, args).get(timeout=5.0)` either returns the complete
result list (one `TaskResult` per ghost, in ghost order) or raises
`multiprocessing.TimeoutError`, in which case *no* result list is delivered
to the caller — results of workers that finished before the timeout are
held in the pool's `AsyncResult` and discarded by the `except` branch,
which only prints a warning.  The two outcomes are modelled by `timedOut`.
-/

structure Ghost where
  x : Int
  y : Int
  last_process_id : Option Nat
  update_count : Nat
deriving DecidableEq

structure TaskResult where
  next_pos : Pos
  process_id : Nat
deriving DecidableEq

/-- Body of the result-application loop (lines 608-611). -/
def apply_result (g : Ghost) (r : TaskResult) : Ghost :=
  { g with x := r.next_pos.1, y := r.next_pos.2,
           last_process_id := some r.process_id,
           update_count := g.update_count + 1 }

/-- `for ghost, result in zip(self.ghosts, results)` with in-place
mutation: ghosts beyond the shorter list are left unchanged. -/
def apply_results : List Ghost → List TaskResult → List Ghost
  | [], _ => []
  | gs, [] => gs
  | g :: gs, r :: rs => apply_result g r :: apply_results gs rs

/-- `update_ghosts_parallel` result handling (lines 604-614); the returned
flag records whether the timeout warning was printed. -/
def update_ghosts_parallel (ghosts : List Ghost) (results : List TaskResult)
    (timedOut : Bool) : List Ghost × Bool :=
  if timedOut then (ghosts, true)
  else (apply_results ghosts results, false)

/-- C1 (amended): when the parallel dispatch times out, the orchestrator
logs a warning and the simulation continues (recoverable), but *no* result
of that tick is applied — every agent keeps its previous position,
last-worker id and update count, including agents whose tasks completed
before the timeout, because `AsyncResult.get` raises without delivering the
partial results.  Without a timeout every result is applied in agent
order. -/
theorem update_ghosts_parallel_timeout (ghosts : List Ghost)
    (results : List TaskResult) (g : Ghost) (r : TaskResult) :
    update_ghosts_parallel ghosts results true = (ghosts, true) ∧
    update_ghosts_parallel ghosts results false = (apply_results ghosts results, false) ∧
    (apply_result g r).x = r.next_pos.1 ∧
    (apply_result g r).y = r.next_pos.2 ∧
    (apply_result g r).last_process_id = some r.process_id ∧
    (apply_result g r).update_count = g.update_count + 1 :=
  ⟨rfl, rfl, rfl, rfl, rfl, rfl⟩

def c1Ghosts : List Ghost :=
  [⟨1, 1, none, 0⟩, ⟨26, 1, none, 0⟩, ⟨1, 18, none, 0⟩, ⟨26, 18, none, 0⟩]

def c1Results : List TaskResult :=
  [⟨(2, 1), 11⟩, ⟨(25, 1), 12⟩, ⟨(1, 17), 13⟩]

/-- C1 counterexample: in the spec's own scenario (timeout with 3 of 4
worker results completed), none of the 3 completed results is applied: the
dispatch returns all four ghosts unchanged, and in particular the first
ghost does not receive its completed result (which would have moved it and
bumped its update count). -/
theorem update_ghosts_parallel_timeout_discards_results :
    (update_ghosts_parallel c1Ghosts c1Results true).1 = c1Ghosts ∧
    (update_ghosts_parallel c1Ghosts c1Results true).1.head?
      ≠ some (apply_result ⟨1, 1, none, 0⟩ ⟨(2, 1), 11⟩) := by
  refine ⟨rfl, ?_⟩
  decide

/-! ## SharedStatsStore and the guarded protocol
(src/main.py lines 151-177, 528-539, 616-629) -/

structure SharedStats where
  total_updates : Nat
  process_ids : List Nat
  race_condition_risk : Nat
deriving DecidableEq

/-- The value installed by `__init__` and by `reset_shared_stats`. -/
def initStats : SharedStats := ⟨0, [], 0⟩

/-- The lock-guarded critical section of `ghost_ai_worker_safe`
(lines 165-171); the lock makes it atomic with respect to other
completions, so a completion is one state transition. -/
def ghost_ai_worker_safe_update (pid : Nat) (s : SharedStats) : SharedStats :=
  { s with total_updates := s.total_updates + 1,
           process_ids := if pid ∈ s.process_ids then s.process_ids
                          else s.process_ids ++ [pid] }

/-- The per-ghost stats update of `update_ghosts_sequential`
(lines 625-629): both the locked and the unlocked branch only increment
`total_updates`. -/
def update_ghosts_sequential_stats (show_locks : Bool) (s : SharedStats) : SharedStats :=
  if show_locks then { s with total_updates := s.total_updates + 1 }
  else { s with total_updates := s.total_updates + 1 }

/-- One guarded completion: either a parallel worker (with its process id)
or one iteration of the sequential update path. -/
inductive GuardedCompletion
  | parallelWorker (pid : Nat)
  | sequentialStep
deriving DecidableEq

def applyGuarded (s : SharedStats) : GuardedCompletion → SharedStats
  | .parallelWorker pid => ghost_ai_worker_safe_update pid s
  | .sequentialStep => update_ghosts_sequential_stats true s

/-- C2 (amended): under the guarded protocol, N completions increase
`total_updates` by exactly N whichever mix of parallel-worker and
sequential-path completions performed them; the worker-identifier list
gains exactly the distinct identifiers of the *parallel-worker*
completions (insert-if-absent, so it stays duplicate-free), while
sequential-path completions record no identifier; `race_condition_risk`
is untouched. -/
theorem guarded_protocol_counts (cs : List GuardedCompletion) (s : SharedStats) :
    (cs.foldl applyGuarded s).total_updates = s.total_updates + cs.length ∧
    (∀ p, p ∈ (cs.foldl applyGuarded s).process_ids ↔
      p ∈ s.process_ids ∨ GuardedCompletion.parallelWorker p ∈ cs) ∧
    (s.process_ids.Nodup → (cs.foldl applyGuarded s).process_ids.Nodup) ∧
    (cs.foldl applyGuarded s).race_condition_risk = s.race_condition_risk := by
  induction cs generalizing s with
  | nil =>
    refine ⟨rfl, ?_, fun h => h, rfl⟩
    intro p
    simp
  | cons c rest ih =>
    simp only [List.foldl_cons, List.length_cons]
    obtain ⟨ih1, ih2, ih3, ih4⟩ := ih (applyGuarded s c)
    have hstep_total : (applyGuarded s c).total_updates = s.total_updates + 1 := by
      cases c with
      | parallelWorker pid => rfl
      | sequentialStep => rfl
    have hstep_race : (applyGuarded s c).race_condition_risk = s.race_condition_risk := by
      cases c with
      | parallelWorker pid => rfl
      | sequentialStep => rfl
    have hstep_ids : ∀ p, p ∈ (applyGuarded s c).process_ids ↔
        p ∈ s.process_ids ∨ c = GuardedCompletion.parallelWorker p := by
      intro p
      cases c with
      | parallelWorker pid =>
        show p ∈ (if pid ∈ s.process_ids then s.process_ids
          else s.process_ids ++ [pid]) ↔ _
        by_cases hmem : pid ∈ s.process_ids
        · rw [if_pos hmem]
          constructor
          · exact fun h => Or.inl h
          · rintro (h | h)
            · exact h
            · rw [GuardedCompletion.parallelWorker.injEq] at h
              exact h ▸ hmem
        · rw [if_neg hmem]
          rw [List.mem_append, List.mem_singleton]
          constructor
          · rintro (h | h)
            · exact Or.inl h
            · exact Or.inr (by rw [h])
          · rintro (h | h)
            · exact Or.inl h
            · rw [GuardedCompletion.parallelWorker.injEq] at h
              exact Or.inr h.symm
      | sequentialStep =>
        show p ∈ s.process_ids ↔ p ∈ s.process_ids ∨ GuardedCompletion.sequentialStep
          = GuardedCompletion.parallelWorker p
        constructor
        · exact fun h => Or.inl h
        · rintro (h | h)
          · exact h
          · exact absurd h (by simp)
    have hstep_nd : s.process_ids.Nodup → (applyGuarded s c).process_ids.Nodup := by
      intro hnd
      cases c with
      | parallelWorker pid =>
        show (if pid ∈ s.process_ids then s.process_ids
          else s.process_ids ++ [pid]).Nodup
        by_cases hmem : pid ∈ s.process_ids
        · rw [if_pos hmem]
          exact hnd
        · rw [if_neg hmem]
          rw [List.nodup_append]
          exact ⟨hnd, List.nodup_singleton _, by
            intro a ha hb
            rw [List.mem_singleton] at hb
            exact hmem (hb ▸ ha)⟩
      | sequentialStep => exact hnd
    refine ⟨by rw [ih1, hstep_total]; omega, ?_, fun h => ih3 (hstep_nd h),
      by rw [ih4, hstep_race]⟩
    intro p
    rw [ih2 p, hstep_ids p, List.mem_cons]
    constructor
    · rintro ((h | h) | h)
      · exact Or.inl h
      · exact Or.inr (Or.inl h.symm)
      · exact Or.inr (Or.inr h)
    · rintro (h | h | h)
      · exact Or.inl (Or.inl h)
      · exact Or.inl (Or.inr h.symm)
      · exact Or.inr h

/-- C2 counterexample: a single guarded completion performed by the
sequential update path increments `total_updates` but records no worker
identifier at all — the identifier list stays empty rather than holding
the identifier of the (main) process that performed the completion. -/
theorem sequential_completion_records_no_id :
    (update_ghosts_sequential_stats true initStats).total_updates = 1 ∧
    (update_ghosts_sequential_stats true initStats).process_ids = [] ∧
    ¬ 1 ≤ (update_ghosts_sequential_stats true initStats).process_ids.length :=
  ⟨rfl, rfl, by decide⟩

/-! ## The unguarded protocol (src/main.py `ghost_ai_worker_unsafe`, lines 179-201)

The unsafe critical section is four Python statements:
`current = shared_stats['total_updates']` / `time.sleep(0.001)` /
`shared_stats['total_updates'] = current + 1` /
`shared_stats['race_condition_risk'] += 1`.
The first three amount to one proxy read and one proxy write of
`total_updates` (the `sleep` only widens the scheduling window between
them and has no state effect), and the `+=` of the last statement is
itself a separate `__getitem__` followed by a `__setitem__` on the
Manager dict — another interleavable read/write pair.  A worker is
therefore a four-action program (read the total counter, write it back
incremented, read the race counter, write it back incremented), and a
parallel execution is an arbitrary interleaving of the per-worker
programs, given by a schedule of worker indices.  Updates to *both*
counters can be lost under interleaving. -/

inductive UWorker
  | notStarted
  | readDone (reg : Nat)
  | writeDone
  | raceReadDone (reg : Nat)
  | done
deriving DecidableEq

structure UState where
  total_updates : Nat
  race_condition_risk : Nat
  workers : List UWorker
deriving DecidableEq

/-- Run the next pending proxy access of worker `i` (no-op if `i` is
finished or out of range). -/
def ustep (s : UState) (i : Nat) : UState :=
  match nthD s.workers i .done with
  | .notStarted => { s with workers := setNth s.workers i (.readDone s.total_updates) }
  | .readDone r => { s with total_updates := r + 1,
                            workers := setNth s.workers i .writeDone }
  | .writeDone => { s with workers := setNth s.workers i
                            (.raceReadDone s.race_condition_risk) }
  | .raceReadDone r => { s with race_condition_risk := r + 1,
                                workers := setNth s.workers i .done }
  | .done => s

def uexec (s : UState) (sched : List Nat) : UState := sched.foldl ustep s

/-- Write-backs of `total_updates` already performed by a worker. -/
def writeW : UWorker → Nat
  | .notStarted => 0
  | .readDone _ => 0
  | _ => 1

/-- Write-backs of `race_condition_risk` already performed by a worker. -/
def raceW : UWorker → Nat
  | .done => 1
  | _ => 0

theorem nthD_out {α : Type} (l : List α) (i : Nat) (d : α) (h : l.length ≤ i) :
    nthD l i d = d := by
  induction l generalizing i with
  | nil => rfl
  | cons a t ih =>
    cases i with
    | zero => simp at h
    | succ n => exact ih n (by simpa using h)

theorem setNth_setNth {α : Type} (l : List α) (i : Nat) (a b : α) :
    setNth (setNth l i a) i b = setNth l i b := by
  induction l generalizing i with
  | nil => rfl
  | cons x t ih =>
    cases i with
    | zero => rfl
    | succ n => simp [setNth, ih]

theorem nthD_append {α : Type} (a b : List α) (k : Nat) (d : α) :
    nthD (a ++ b) (a.length + k) d = nthD b k d := by
  induction a with
  | nil => simp [nthD]
  | cons x t ih => simpa [nthD, Nat.succ_add] using ih

theorem setNth_append {α : Type} (a b : List α) (k : Nat) (v : α) :
    setNth (a ++ b) (a.length + k) v = a ++ setNth b k v := by
  induction a with
  | nil => simp [setNth]
  | cons x t ih => simpa [setNth, Nat.succ_add] using ih

theorem map_sum_setNth {α : Type} (f : α → Nat) (l : List α) (i : Nat) (v d : α)
    (h : i < l.length) :
    ((setNth l i v).map f).sum + f (nthD l i d) = (l.map f).sum + f v := by
  induction l generalizing i with
  | nil => simp at h
  | cons a t ih =>
    cases i with
    | zero =>
      simp only [setNth, nthD, List.map_cons, List.sum_cons]
      omega
    | succ n =>
      simp only [setNth, nthD, List.map_cons, List.sum_cons]
      have := ih n (by simpa using h)
      omega

theorem length_ustep (s : UState) (i : Nat) :
    (ustep s i).workers.length = s.workers.length := by
  unfold ustep
  cases nthD s.workers i UWorker.done <;> simp [length_setNth]

theorem length_uexec (sched : List Nat) : ∀ s : UState,
    (uexec s sched).workers.length = s.workers.length := by
  induction sched with
  | nil => intro s; rfl
  | cons i rest ih =>
    intro s
    have hstep : uexec s (i :: rest) = uexec (ustep s i) rest := rfl
    rw [hstep, ih (ustep s i), length_ustep]

/-- Invariant bounding a lost-update counter: the counter never exceeds
its initial value plus the number of write-backs performed, and every
stashed read is similarly bounded.  Used once for `total_updates` and
once for `race_condition_risk`. -/
def TotalBound (t0 : Nat) (s : UState) : Prop :=
  s.total_updates ≤ t0 + (s.workers.map writeW).sum ∧
  ∀ i x, nthD s.workers i UWorker.done = UWorker.readDone x →
    x ≤ t0 + (s.workers.map writeW).sum

def RaceBound (r0 : Nat) (s : UState) : Prop :=
  s.race_condition_risk ≤ r0 + (s.workers.map raceW).sum ∧
  ∀ i x, nthD s.workers i UWorker.done = UWorker.raceReadDone x →
    x ≤ r0 + (s.workers.map raceW).sum

theorem ustep_total (t0 : Nat) (s : UState) (i : Nat) (h : TotalBound t0 s) :
    TotalBound t0 (ustep s i) := by
  obtain ⟨h1, h2⟩ := h
  by_cases hlen : i < s.workers.length
  · cases hval : nthD s.workers i UWorker.done with
    | notStarted =>
      simp only [ustep, hval]
      have hsum := map_sum_setNth writeW s.workers i
        (UWorker.readDone s.total_updates) UWorker.done hlen
      rw [hval] at hsum
      have ha : writeW UWorker.notStarted = 0 := rfl
      have hb : writeW (UWorker.readDone s.total_updates) = 0 := rfl
      refine ⟨?_, ?_⟩
      · dsimp only
        omega
      · intro j x hj
        dsimp only at hj ⊢
        by_cases hij : i = j
        · rw [← hij, nthD_setNth_eq _ _ _ _ hlen] at hj
          have hx : x = s.total_updates := (UWorker.readDone.inj hj).symm
          omega
        · rw [nthD_setNth_ne _ _ _ _ _ hij] at hj
          have := h2 j x hj
          omega
    | readDone r =>
      simp only [ustep, hval]
      have hsum := map_sum_setNth writeW s.workers i UWorker.writeDone UWorker.done hlen
      rw [hval] at hsum
      have ha : writeW (UWorker.readDone r) = 0 := rfl
      have hb : writeW UWorker.writeDone = 1 := rfl
      have hr := h2 i r hval
      refine ⟨?_, ?_⟩
      · dsimp only
        omega
      · intro j x hj
        dsimp only at hj ⊢
        by_cases hij : i = j
        · rw [← hij, nthD_setNth_eq _ _ _ _ hlen] at hj
          exact absurd hj (by simp)
        · rw [nthD_setNth_ne _ _ _ _ _ hij] at hj
          have := h2 j x hj
          omega
    | writeDone =>
      simp only [ustep, hval]
      have hsum := map_sum_setNth writeW s.workers i
        (UWorker.raceReadDone s.race_condition_risk) UWorker.done hlen
      rw [hval] at hsum
      have ha : writeW UWorker.writeDone = 1 := rfl
      have hb : writeW (UWorker.raceReadDone s.race_condition_risk) = 1 := rfl
      refine ⟨?_, ?_⟩
      · dsimp only
        omega
      · intro j x hj
        dsimp only at hj ⊢
        by_cases hij : i = j
        · rw [← hij, nthD_setNth_eq _ _ _ _ hlen] at hj
          exact absurd hj (by simp)
        · rw [nthD_setNth_ne _ _ _ _ _ hij] at hj
          have := h2 j x hj
          omega
    | raceReadDone r =>
      simp only [ustep, hval]
      have hsum := map_sum_setNth writeW s.workers i UWorker.done UWorker.done hlen
      rw [hval] at hsum
      have ha : writeW (UWorker.raceReadDone r) = 1 := rfl
      have hb : writeW UWorker.done = 1 := rfl
      refine ⟨?_, ?_⟩
      · dsimp only
        omega
      · intro j x hj
        dsimp only at hj ⊢
        by_cases hij : i = j
        · rw [← hij, nthD_setNth_eq _ _ _ _ hlen] at hj
          exact absurd hj (by simp)
        · rw [nthD_setNth_ne _ _ _ _ _ hij] at hj
          have := h2 j x hj
          omega
    | done =>
      simp only [ustep, hval]
      exact ⟨h1, h2⟩
  · have hval : nthD s.workers i UWorker.done = UWorker.done := nthD_out _ _ _ (by omega)
    simp only [ustep, hval]
    exact ⟨h1, h2⟩

theorem ustep_race (r0 : Nat) (s : UState) (i : Nat) (h : RaceBound r0 s) :
    RaceBound r0 (ustep s i) := by
  obtain ⟨h1, h2⟩ := h
  by_cases hlen : i < s.workers.length
  · cases hval : nthD s.workers i UWorker.done with
    | notStarted =>
      simp only [ustep, hval]
      have hsum := map_sum_setNth raceW s.workers i
        (UWorker.readDone s.total_updates) UWorker.done hlen
      rw [hval] at hsum
      have ha : raceW UWorker.notStarted = 0 := rfl
      have hb : raceW (UWorker.readDone s.total_updates) = 0 := rfl
      refine ⟨?_, ?_⟩
      · dsimp only
        omega
      · intro j x hj
        dsimp only at hj ⊢
        by_cases hij : i = j
        · rw [← hij, nthD_setNth_eq _ _ _ _ hlen] at hj
          exact absurd hj (by simp)
        · rw [nthD_setNth_ne _ _ _ _ _ hij] at hj
          have := h2 j x hj
          omega
    | readDone r =>
      simp only [ustep, hval]
      have hsum := map_sum_setNth raceW s.workers i UWorker.writeDone UWorker.done hlen
      rw [hval] at hsum
      have ha : raceW (UWorker.readDone r) = 0 := rfl
      have hb : raceW UWorker.writeDone = 0 := rfl
      refine ⟨?_, ?_⟩
      · dsimp only
        omega
      · intro j x hj
        dsimp only at hj ⊢
        by_cases hij : i = j
        · rw [← hij, nthD_setNth_eq _ _ _ _ hlen] at hj
          exact absurd hj (by simp)
        · rw [nthD_setNth_ne _ _ _ _ _ hij] at hj
          have := h2 j x hj
          omega
    | writeDone =>
      simp only [ustep, hval]
      have hsum := map_sum_setNth raceW s.workers i
        (UWorker.raceReadDone s.race_condition_risk) UWorker.done hlen
      rw [hval] at hsum
      have ha : raceW UWorker.writeDone = 0 := rfl
      have hb : raceW (UWorker.raceReadDone s.race_condition_risk) = 0 := rfl
      refine ⟨?_, ?_⟩
      · dsimp only
        omega
      · intro j x hj
        dsimp only at hj ⊢
        by_cases hij : i = j
        · rw [← hij, nthD_setNth_eq _ _ _ _ hlen] at hj
          have hx : x = s.race_condition_risk := (UWorker.raceReadDone.inj hj).symm
          omega
        · rw [nthD_setNth_ne _ _ _ _ _ hij] at hj
          have := h2 j x hj
          omega
    | raceReadDone r =>
      simp only [ustep, hval]
      have hsum := map_sum_setNth raceW s.workers i UWorker.done UWorker.done hlen
      rw [hval] at hsum
      have ha : raceW (UWorker.raceReadDone r) = 0 := rfl
      have hb : raceW UWorker.done = 1 := rfl
      have hr := h2 i r hval
      refine ⟨?_, ?_⟩
      · dsimp only
        omega
      · intro j x hj
        dsimp only at hj ⊢
        by_cases hij : i = j
        · rw [← hij, nthD_setNth_eq _ _ _ _ hlen] at hj
          exact absurd hj (by simp)
        · rw [nthD_setNth_ne _ _ _ _ _ hij] at hj
          have := h2 j x hj
          omega
    | done =>
      simp only [ustep, hval]
      exact ⟨h1, h2⟩
  · have hval : nthD s.workers i UWorker.done = UWorker.done := nthD_out _ _ _ (by omega)
    simp only [ustep, hval]
    exact ⟨h1, h2⟩

theorem uexec_total (t0 : Nat) (sched : List Nat) : ∀ s : UState,
    TotalBound t0 s → TotalBound t0 (uexec s sched) := by
  induction sched with
  | nil => intro s h; exact h
  | cons i rest ih =>
    intro s h
    exact ih (ustep s i) (ustep_total t0 s i h)

theorem uexec_race (r0 : Nat) (sched : List Nat) : ∀ s : UState,
    RaceBound r0 s → RaceBound r0 (uexec s sched) := by
  induction sched with
  | nil => intro s h; exact h
  | cons i rest ih =>
    intro s h
    exact ih (ustep s i) (ustep_race r0 s i h)

theorem sum_replicate_zero (n : Nat) : (List.replicate n 0).sum = 0 := by
  induction n with
  | zero => rfl
  | succ k ih => simp [List.replicate, ih]

/-- Running a fresh worker's four proxy accesses back to back (no
interleaving) adds exactly one to both counters. -/
theorem run_worker (s : UState) (i : Nat) (hlen : i < s.workers.length)
    (hval : nthD s.workers i UWorker.done = UWorker.notStarted) :
    uexec s [i, i, i, i] =
      ⟨s.total_updates + 1, s.race_condition_risk + 1,
        setNth s.workers i UWorker.done⟩ := by
  have e1 : ustep s i = ⟨s.total_updates, s.race_condition_risk,
      setNth s.workers i (UWorker.readDone s.total_updates)⟩ := by
    simp only [ustep, hval]
  have e2 : ustep (ustep s i) i = ⟨s.total_updates + 1, s.race_condition_risk,
      setNth s.workers i UWorker.writeDone⟩ := by
    rw [e1]
    simp only [ustep, nthD_setNth_eq _ _ _ _ hlen, setNth_setNth]
  have e3 : ustep (ustep (ustep s i) i) i = ⟨s.total_updates + 1, s.race_condition_risk,
      setNth s.workers i (UWorker.raceReadDone s.race_condition_risk)⟩ := by
    rw [e2]
    simp only [ustep, nthD_setNth_eq _ _ _ _ hlen, setNth_setNth]
  have e4 : ustep (ustep (ustep (ustep s i) i) i) i
      = ⟨s.total_updates + 1, s.race_condition_risk + 1,
          setNth s.workers i UWorker.done⟩ := by
    rw [e3]
    simp only [ustep, nthD_setNth_eq _ _ _ _ hlen, setNth_setNth]
  show ustep (ustep (ustep (ustep s i) i) i) i = _
  exact e4

/-- The purely sequential schedule: worker 0 runs to completion, then
worker 1, and so on (no interleaving). -/
def serialSched : Nat → List Nat
  | 0 => []
  | n + 1 => serialSched n ++ [n, n, n, n]

theorem uexec_append (s : UState) (a b : List Nat) :
    uexec s (a ++ b) = uexec (uexec s a) b :=
  List.foldl_append _ _ _ _

theorem serial_exec (N t r : Nat) : ∀ n, n ≤ N →
    uexec ⟨t, r, List.replicate N UWorker.notStarted⟩ (serialSched n)
      = ⟨t + n, r + n,
          List.replicate n UWorker.done
            ++ List.replicate (N - n) UWorker.notStarted⟩ := by
  intro n
  induction n with
  | zero =>
    intro _
    simp [serialSched, uexec]
  | succ k ih =>
    intro hk
    rw [serialSched, uexec_append, ih (by omega)]
    have hlen : k < (List.replicate k UWorker.done
        ++ List.replicate (N - k) UWorker.notStarted).length := by
      rw [List.length_append, List.length_replicate, List.length_replicate]
      omega
    have hval : nthD (List.replicate k UWorker.done
        ++ List.replicate (N - k) UWorker.notStarted) k UWorker.done
        = UWorker.notStarted := by
      have happ := nthD_append (List.replicate k UWorker.done)
        (List.replicate (N - k) UWorker.notStarted) 0 UWorker.done
      simp only [List.length_replicate, Nat.add_zero] at happ
      rw [happ]
      cases hNk : N - k with
      | zero => omega
      | succ j => simp [List.replicate, nthD]
    rw [run_worker _ k hlen hval]
    have hws : setNth (List.replicate k UWorker.done
        ++ List.replicate (N - k) UWorker.notStarted) k UWorker.done
        = List.replicate (k + 1) UWorker.done
          ++ List.replicate (N - (k + 1)) UWorker.notStarted := by
      have happ := setNth_append (List.replicate k UWorker.done)
        (List.replicate (N - k) UWorker.notStarted) 0 UWorker.done
      simp only [List.length_replicate, Nat.add_zero] at happ
      rw [happ]
      cases hNk : N - k with
      | zero => omega
      | succ j =>
        have hj : N - (k + 1) = j := by omega
        rw [hj]
        rw [show List.replicate (j + 1) UWorker.notStarted
          = UWorker.notStarted :: List.replicate j UWorker.notStarted from rfl]
        rw [show setNth (UWorker.notStarted :: List.replicate j UWorker.notStarted) 0
            UWorker.done = UWorker.done :: List.replicate j UWorker.notStarted from rfl]
        rw [List.replicate_succ' k UWorker.done]
        rw [List.append_assoc]
        rfl
    rw [hws]
    have h1 : t + k + 1 = t + (k + 1) := by omega
    have h2 : r + k + 1 = r + (k + 1) := by omega
    rw [h1, h2]

theorem map_sum_all_done (ws : List UWorker) (h : ∀ w ∈ ws, w = UWorker.done) :
    (ws.map raceW).sum = ws.length ∧ (ws.map writeW).sum = ws.length := by
  induction ws with
  | nil => exact ⟨rfl, rfl⟩
  | cons w rest ih =>
    obtain ⟨ih1, ih2⟩ := ih (fun z hz => h z (List.mem_cons_of_mem _ hz))
    have hw : w = UWorker.done := h w (List.mem_cons_self _ _)
    subst hw
    constructor
    · simp [raceW, ih1]
      omega
    · simp [writeW, ih2]
      omega

/-- C3 (amended): the unguarded protocol's read-then-write pattern applies
to *both* shared counters (the race-counter `+=` is itself a separate
proxy read and write), so under any interleaved schedule that completes
all N parallel workers, `race_condition_risk` increases by at most N and
`total_updates` increases by at most N — increments of either counter can
be lost; when the N workers run serially (no interleaving), both counters
increase by exactly N.  The sequential update path does not use the worker
protocol at all: with locks off it behaves identically to the locked
branch, incrementing only `total_updates` and leaving
`race_condition_risk` unchanged. -/
theorem unguarded_protocol_counts (N t r : Nat) (sched : List Nat)
    (hdone : ∀ w ∈ (uexec ⟨t, r, List.replicate N UWorker.notStarted⟩ sched).workers,
      w = UWorker.done) :
    (uexec ⟨t, r, List.replicate N UWorker.notStarted⟩ sched).race_condition_risk
      ≤ r + N ∧
    (uexec ⟨t, r, List.replicate N UWorker.notStarted⟩ sched).total_updates ≤ t + N ∧
    uexec ⟨t, r, List.replicate N UWorker.notStarted⟩ (serialSched N)
      = ⟨t + N, r + N, List.replicate N UWorker.done⟩ ∧
    ∀ s : SharedStats,
      update_ghosts_sequential_stats true s = update_ghosts_sequential_stats false s ∧
      (update_ghosts_sequential_stats false s).race_condition_risk
        = s.race_condition_risk ∧
      (update_ghosts_sequential_stats false s).total_updates = s.total_updates + 1 := by
  obtain ⟨hraces, hwrites⟩ := map_sum_all_done _ hdone
  have hlen : (uexec ⟨t, r, List.replicate N UWorker.notStarted⟩ sched).workers.length
      = N := by
    rw [length_uexec]
    exact List.length_replicate _ _
  have hnever : ∀ (w : UWorker), w ∈ List.replicate N UWorker.notStarted →
      w = UWorker.notStarted := fun w hw => List.eq_of_mem_replicate hw
  refine ⟨?_, ?_, ?_, ?_⟩
  · have hinit : RaceBound r ⟨t, r, List.replicate N UWorker.notStarted⟩ := by
      constructor
      · dsimp only
        omega
      · intro i x hx
        dsimp only at hx
        by_cases hi : i < N
        · rw [nthD_replicate, if_pos hi] at hx
          exact absurd hx (by simp)
        · rw [nthD_replicate, if_neg hi] at hx
          exact absurd hx (by simp)
    have hfinal := uexec_race r sched _ hinit
    have h1 := hfinal.1
    rw [hraces, hlen] at h1
    exact h1
  · have hinit : TotalBound t ⟨t, r, List.replicate N UWorker.notStarted⟩ := by
      constructor
      · dsimp only
        omega
      · intro i x hx
        dsimp only at hx
        by_cases hi : i < N
        · rw [nthD_replicate, if_pos hi] at hx
          exact absurd hx (by simp)
        · rw [nthD_replicate, if_neg hi] at hx
          exact absurd hx (by simp)
    have hfinal := uexec_total t sched _ hinit
    have h1 := hfinal.1
    rw [hwrites, hlen] at h1
    exact h1
  · have := serial_exec N t r N (le_refl N)
    simpa using this
  · intro s
    exact ⟨rfl, rfl, rfl⟩

/-- An interleaving in which both workers read each counter before either
writes it back: both increments of `total_updates` collapse into one, and
so do both increments of `race_condition_risk`. -/
def c3DemoSched : List Nat := [0, 1, 0, 1, 0, 1, 0, 1]

/-- C3 witness: two fully interleaved workers complete, yet each counter
only reaches 1 (≤ 2) — the serial schedule still yields exactly 2. -/
theorem unguarded_protocol_counts_witness :
    (∀ w ∈ (uexec ⟨0, 0, List.replicate 2 UWorker.notStarted⟩ c3DemoSched).workers,
      w = UWorker.done) ∧
    ((uexec ⟨0, 0, List.replicate 2 UWorker.notStarted⟩ c3DemoSched).race_condition_risk
      ≤ 0 + 2 ∧
    (uexec ⟨0, 0, List.replicate 2 UWorker.notStarted⟩ c3DemoSched).total_updates ≤ 0 + 2 ∧
    uexec ⟨0, 0, List.replicate 2 UWorker.notStarted⟩ (serialSched 2)
      = ⟨0 + 2, 0 + 2, List.replicate 2 UWorker.done⟩ ∧
    ∀ s : SharedStats,
      update_ghosts_sequential_stats true s = update_ghosts_sequential_stats false s ∧
      (update_ghosts_sequential_stats false s).race_condition_risk
        = s.race_condition_risk ∧
      (update_ghosts_sequential_stats false s).total_updates = s.total_updates + 1) :=
  ⟨by decide, unguarded_protocol_counts 2 0 0 c3DemoSched (by decide)⟩

/-- The race counter's own increments can be lost: this schedule keeps
the two `total_updates` write-backs serial (total reaches 2) but
interleaves the two race-counter read/write pairs, so
`race_condition_risk` ends at 1 after 2 completions. -/
theorem race_increment_can_be_lost :
    uexec ⟨0, 0, List.replicate 2 UWorker.notStarted⟩ [0, 0, 1, 1, 0, 1, 0, 1]
      = ⟨2, 1, List.replicate 2 UWorker.done⟩ := by
  decide

/-- C3 counterexample: one unguarded completion performed by the
sequential update path increments `total_updates` but leaves `race_events`
at 0, not 1 — the sequential path never touches the race counter. -/
theorem seq_unguarded_no_race_event :
    (update_ghosts_sequential_stats false initStats).total_updates = 1 ∧
    (update_ghosts_sequential_stats false initStats).race_condition_risk = 0 ∧
    (update_ghosts_sequential_stats false initStats).race_condition_risk ≠ 1 :=
  ⟨rfl, rfl, by decide⟩

/-! ## Speedup and efficiency reporting
(src/main.py lines 416-428, 640-663, 734-738)

The timing samples are Python floats; they are modelled over `ℚ`, which
captures the exact arithmetic formulas the source computes. -/

/-- `get_game_state` (lines 644-647): speedup is published as 0 until
both timings are known. -/
def get_game_state_speedup (sequential_time parallel_time : ℚ) : ℚ :=
  if 0 < sequential_time ∧ 0 < parallel_time then sequential_time / parallel_time
  else 0

/-- `draw_info_panel` (line 418): the speedup/efficiency line is drawn
only when both timings are positive. -/
def speedup_line_shown (sequential_time parallel_time : ℚ) : Bool :=
  decide (0 < sequential_time ∧ 0 < parallel_time)

/-- `draw_info_panel` (lines 419-421): `actual_speedup = S / P`,
`theoretical_speedup = NUM_GHOSTS`, efficiency shown as a percentage. -/
def draw_info_panel_efficiency (sequential_time parallel_time : ℚ) : ℚ :=
  sequential_time / parallel_time / (NUM_GHOSTS : ℚ) * 100

/-- `main` (line 738): the worker-pool size. -/
def num_workers (cpu_count : Nat) : Nat := min NUM_GHOSTS (max 1 cpu_count)

/-- C6 (amended): with both timings positive, the published speedup is
exactly `S / P` and the info panel draws the speedup line; the efficiency
it draws is `(S / P / NUM_GHOSTS) * 100` — a percentage of the ghost
count, not of the worker-pool size — which agrees with speedup/poolSize
(as a fraction) exactly when the machine has at least `NUM_GHOSTS` cores;
when either timing is still 0, the snapshot publishes speedup 0 and the
panel omits the speedup line. -/
theorem speedup_efficiency_formulas (S P : ℚ) (cpu : Nat) (hS : 0 < S) (hP : 0 < P) :
    get_game_state_speedup S P = S / P ∧
    speedup_line_shown S P = true ∧
    draw_info_panel_efficiency S P = S / P / (NUM_GHOSTS : ℚ) * 100 ∧
    (NUM_GHOSTS ≤ cpu →
      draw_info_panel_efficiency S P / 100
        = get_game_state_speedup S P / (num_workers cpu : ℚ)) ∧
    get_game_state_speedup 0 P = 0 ∧
    get_game_state_speedup S 0 = 0 ∧
    speedup_line_shown 0 P = false ∧
    speedup_line_shown S 0 = false := by
  refine ⟨?_, ?_, rfl, ?_, ?_, ?_, ?_, ?_⟩
  · rw [get_game_state_speedup, if_pos ⟨hS, hP⟩]
  · rw [speedup_line_shown]
    simp [hS, hP]
  · intro hcpu
    have hw : num_workers cpu = NUM_GHOSTS := by
      have h4 : NUM_GHOSTS = 4 := rfl
      unfold num_workers
      omega
    rw [hw, get_game_state_speedup, if_pos ⟨hS, hP⟩, draw_info_panel_efficiency]
    ring
  · rw [get_game_state_speedup, if_neg (by simp)]
  · rw [get_game_state_speedup, if_neg (by simp)]
  · rw [speedup_line_shown]
    simp
  · rw [speedup_line_shown]
    simp

/-- C6 witness: the formulas instantiated at S = 4, P = 2 on an 8-core
machine. -/
theorem speedup_efficiency_formulas_witness :
    (0 : ℚ) < 4 ∧ (0 : ℚ) < 2 ∧
    (get_game_state_speedup 4 2 = 4 / 2 ∧
    speedup_line_shown 4 2 = true ∧
    draw_info_panel_efficiency 4 2 = 4 / 2 / (NUM_GHOSTS : ℚ) * 100 ∧
    (NUM_GHOSTS ≤ 8 →
      draw_info_panel_efficiency 4 2 / 100
        = get_game_state_speedup 4 2 / (num_workers 8 : ℚ)) ∧
    get_game_state_speedup 0 2 = 0 ∧
    get_game_state_speedup 4 0 = 0 ∧
    speedup_line_shown 0 2 = false ∧
    speedup_line_shown 4 0 = false) :=
  ⟨by norm_num, by norm_num,
    speedup_efficiency_formulas 4 2 8 (by norm_num) (by norm_num)⟩

/-- C6 counterexample: on a 2-core machine the worker pool has size 2, but
with S = 2, P = 1 the panel publishes an efficiency of 50 (a percentage of
`NUM_GHOSTS = 4`), which differs from the claimed speedup divided by the
worker-pool size (2/1/2 = 1). -/
theorem efficiency_not_speedup_div_poolsize :
    num_workers 2 = 2 ∧
    draw_info_panel_efficiency 2 1 = 50 ∧
    draw_info_panel_efficiency 2 1 ≠ (2 : ℚ) / 1 / (num_workers 2 : ℚ) := by
  refine ⟨rfl, ?_, ?_⟩
  · rw [draw_info_panel_efficiency]
    norm_num [NUM_GHOSTS]
  · rw [draw_info_panel_efficiency]
    norm_num [NUM_GHOSTS, num_workers]

/-! ## Offline analysis fallback (src/analytics.py lines 24-53, 448-524) -/

inductive ModeTag
  | parallel
  | sequential
  | other
deriving DecidableEq

/-- One CSV data row as the `load_csv` loop sees it: `none` when the
numeric conversions raise (`ValueError`/`KeyError`, row skipped),
otherwise the value of its `mode` field. -/
abbrev CsvRow : Type := Option ModeTag

/-- `load_csv` grouping (lines 29-53): parsed rows whose mode is a known
key are appended to that mode's list; others are dropped. -/
def load_csv (rows : List CsvRow) : List CsvRow × List CsvRow :=
  (rows.filter (· = some ModeTag.parallel),
   rows.filter (· = some ModeTag.sequential))

structure AnalysisOutcome where
  usedDemo : Bool
  reportProduced : Bool
  chartsProduced : Bool
deriving DecidableEq

/-- Control flow of `analytics.main` (lines 459-524): a missing file
falls back to the demo dataset and still reports; a present file with no
valid data rows prints an error and returns early, producing nothing; a
file with data produces the report (charts require matplotlib in every
reporting path). -/
def analysis_main (input : Option (List CsvRow)) (hasMatplotlib : Bool) :
    AnalysisOutcome :=
  match input with
  | none => ⟨true, true, hasMatplotlib⟩
  | some rows =>
    if (load_csv rows).1.length = 0 ∧ (load_csv rows).2.length = 0 then
      ⟨false, false, false⟩
    else ⟨false, true, hasMatplotlib⟩

/-- C7 (amended): a *missing* input file makes the analysis tool fall back
to the built-in demonstration dataset and still produce the text report
(and charts when matplotlib is available); but a present file with no
valid data rows does *not* fall back — the tool prints an error and
returns without producing a report or charts.  With at least one valid
row, the real data is used and the report is produced. -/
theorem analysis_fallback (rows : List CsvRow) (hasMpl : Bool) :
    analysis_main none hasMpl = ⟨true, true, hasMpl⟩ ∧
    ((load_csv rows).1.length = 0 ∧ (load_csv rows).2.length = 0 →
      analysis_main (some rows) hasMpl = ⟨false, false, false⟩) ∧
    (¬((load_csv rows).1.length = 0 ∧ (load_csv rows).2.length = 0) →
      analysis_main (some rows) hasMpl = ⟨false, true, hasMpl⟩) := by
  refine ⟨rfl, ?_, ?_⟩
  · intro h
    show (if (load_csv rows).1.length = 0 ∧ (load_csv rows).2.length = 0 then
        (⟨false, false, false⟩ : AnalysisOutcome)
      else ⟨false, true, hasMpl⟩) = ⟨false, false, false⟩
    rw [if_pos h]
  · intro h
    show (if (load_csv rows).1.length = 0 ∧ (load_csv rows).2.length = 0 then
        (⟨false, false, false⟩ : AnalysisOutcome)
      else ⟨false, true, hasMpl⟩) = ⟨false, true, hasMpl⟩
    rw [if_neg h]

/-- C7 counterexample: an existing input whose rows are all invalid (here
one malformed row, and also the fully empty file) produces no report at
all — `reportProduced = false` — contradicting the claimed
fallback-and-report behaviour for the no-valid-rows case. -/
theorem empty_input_produces_no_report :
    analysis_main (some [(none : CsvRow)]) true = ⟨false, false, false⟩ ∧
    (analysis_main (some [(none : CsvRow)]) true).reportProduced = false ∧
    (analysis_main (some ([] : List CsvRow)) true).reportProduced = false := by
  refine ⟨?_, ?_, ?_⟩ <;> decide

/-! ## Event handling and mode toggles
(src/main.py lines 535-539, 550-572) -/

inductive GameKey
  | keyEscape
  | keySpace
  | keyL
  | keyU
  | keyR
  | keyPlus
  | keyMinus
  | keyOther
deriving DecidableEq

structure GameState where
  parallel : Bool
  show_locks : Bool
  ai_work_ms : Int
  shared_stats : SharedStats
  running : Bool
deriving DecidableEq

/-- `ParallelPacmanGame.reset_shared_stats` (lines 535-539). -/
def reset_shared_stats (s : GameState) : GameState :=
  { s with shared_stats := ⟨0, [], 0⟩ }

/-- The shared-stats effect of `reset_game` (line 547); the pac-man,
ghost and pellet resets touch entities outside this state record. -/
def reset_game_stats (s : GameState) : GameState :=
  reset_shared_stats s

/-- One KEYDOWN event of `handle_events` (lines 555-572). -/
def handle_key (s : GameState) (k : GameKey) : GameState :=
  match k with
  | .keyEscape => { s with running := false }
  | .keySpace => reset_shared_stats { s with parallel := !s.parallel }
  | .keyL => reset_shared_stats { s with show_locks := !s.show_locks }
  | .keyU => reset_shared_stats { s with show_locks := false }
  | .keyR => reset_game_stats s
  | .keyPlus => { s with ai_work_ms := min 500 (s.ai_work_ms + 10) }
  | .keyMinus => { s with ai_work_ms := max 0 (s.ai_work_ms - 10) }
  | .keyOther => s

def handle_events (s : GameState) (ks : List GameKey) : GameState :=
  ks.foldl handle_key s

/-- `__init__` (lines 517-532): parallel mode on, locks on, workload
`AI_WORK_MS`, zeroed shared stats. -/
def initGameState : GameState := ⟨true, true, AI_WORK_MS, initStats, true⟩

/-- C8: every toggle of the parallel/sequential mode (SPACE) and of the
locks mode (L, and the force-unsafe U) resets the shared statistics
exactly to `{total_updates := 0, process_ids := [], race_events := 0}`,
so counting after the toggle starts from zero — whatever events preceded
the toggle; and the toggles do flip their flags. -/
theorem mode_toggle_resets_stats (s : GameState) (ks : List GameKey) :
    (handle_key s GameKey.keySpace).shared_stats = initStats ∧
    (handle_key s GameKey.keySpace).parallel = !s.parallel ∧
    (handle_key s GameKey.keyL).shared_stats = initStats ∧
    (handle_key s GameKey.keyL).show_locks = !s.show_locks ∧
    (handle_key s GameKey.keyU).shared_stats = initStats ∧
    (handle_key s GameKey.keyU).show_locks = false ∧
    (handle_events s (ks ++ [GameKey.keySpace])).shared_stats = initStats ∧
    (handle_events s (ks ++ [GameKey.keyL])).shared_stats = initStats := by
  refine ⟨rfl, rfl, rfl, rfl, rfl, rfl, ?_, ?_⟩
  · rw [handle_events, List.foldl_append]
    rfl
  · rw [handle_events, List.foldl_append]
    rfl

/-- C10: starting from the initial workload of `AI_WORK_MS = 80` ms, the
configured workload stays within `[0, 500]` ms under every sequence of
key events; an increase sets `min 500 (w + 10)` and a decrease sets
`max 0 (w - 10)`. -/
theorem workload_stays_bounded (ks : List GameKey) :
    0 ≤ (handle_events initGameState ks).ai_work_ms ∧
    (handle_events initGameState ks).ai_work_ms ≤ 500 ∧
    (∀ s : GameState,
      (handle_key s GameKey.keyPlus).ai_work_ms = min 500 (s.ai_work_ms + 10) ∧
      (handle_key s GameKey.keyMinus).ai_work_ms = max 0 (s.ai_work_ms - 10)) := by
  have hstep : ∀ (s : GameState) (k : GameKey), 0 ≤ s.ai_work_ms → s.ai_work_ms ≤ 500 →
      0 ≤ (handle_key s k).ai_work_ms ∧ (handle_key s k).ai_work_ms ≤ 500 := by
    intro s k h0 h1
    cases k <;> simp [handle_key, reset_shared_stats, reset_game_stats] <;> omega
  have hfold : ∀ (l : List GameKey) (s : GameState),
      0 ≤ s.ai_work_ms → s.ai_work_ms ≤ 500 →
      0 ≤ (handle_events s l).ai_work_ms ∧ (handle_events s l).ai_work_ms ≤ 500 := by
    intro l
    induction l with
    | nil =>
      intro s h0 h1
      exact ⟨h0, h1⟩
    | cons k rest ih =>
      intro s h0 h1
      have h := hstep s k h0 h1
      exact ih (handle_key s k) h.1 h.2
  have h := hfold ks initGameState (by decide) (by decide)
  exact ⟨h.1, h.2, fun s => ⟨rfl, rfl⟩⟩

/-! ## Timing-sample history (src/main.py `run`, lines 693-696) -/

/-- `self.ai_times.append(ai_time)` then `if len(self.ai_times) > 30:
self.ai_times.pop(0)`. -/
def record_ai_time (ai_times : List ℚ) (t : ℚ) : List ℚ :=
  if 30 < (ai_times ++ [t]).length then (ai_times ++ [t]).tail
  else ai_times ++ [t]

/-- C9: every tick appends the new sample and, exactly when the history
would exceed 30, evicts the oldest sample; the bound `length ≤ 30` is an
invariant preserved by every tick. -/
theorem ai_times_bounded (h : List ℚ) (t : ℚ) (hb : h.length ≤ 30) :
    (record_ai_time h t).length ≤ 30 ∧
    (h.length < 30 → record_ai_time h t = h ++ [t]) ∧
    (h.length = 30 → record_ai_time h t = (h ++ [t]).tail) := by
  refine ⟨?_, ?_, ?_⟩
  · unfold record_ai_time
    by_cases hc : 30 < (h ++ [t]).length
    · rw [if_pos hc, List.length_tail, List.length_append]
      simp
      omega
    · rw [if_neg hc]
      rw [List.length_append] at hc
      simp at hc
      rw [List.length_append]
      simp
      omega
  · intro hlt
    unfold record_ai_time
    rw [if_neg (by rw [List.length_append]; simp; omega)]
  · intro heq
    unfold record_ai_time
    rw [if_pos (by rw [List.length_append]; simp; omega)]

/-- C9 witness: one tick from an empty history. -/
theorem ai_times_bounded_witness :
    (([] : List ℚ).length ≤ 30) ∧
    ((record_ai_time [] 1).length ≤ 30 ∧
     (([] : List ℚ).length < 30 → record_ai_time [] 1 = [] ++ [1]) ∧
     (([] : List ℚ).length = 30 → record_ai_time [] 1 = ([] ++ [1]).tail)) :=
  ⟨by decide, ai_times_bounded [] 1 (by decide)⟩

end PacPar
